import Mathlib

/-!
# ForkedNumberSorting: `IntegerSorting.cpp`

A shallow embedding of the sorting core of `IntegerSorting.cpp` and the
properties proved about it.

* A `vector<int>` is a `List Int`. The values are only copied and compared, so
  every `int` is an `Int` and nothing depends on the width of the values.
* Indices (`int startIndex`, `int endIndex`, `i`, `j`) are `Nat`. The source
  calls `partition` only with `startIndex < endIndex`, where no index is
  negative; vectors are taken to hold fewer than `2^31` elements, so that
  `size()` fits the `int` parameters.
* A process is a pure function from its input to an `Outcome`; what the
  operating system does (whether `pipe` and `fork` succeed, which worker writes
  first, how much the pipe holds, what uninitialised memory contains) is an
  explicit parameter, `Sched`, one per invocation of the recursive case.
* Recursion that the source leaves unbounded (`quicksort`, the `while` loop of
  `merge`, `sortInts`, the `while` loop of `parseInts`) takes a fuel argument
  and returns `none` when the fuel runs out; the theorems show that the fuel
  given is always enough.
* A `string` is a `List Char`; the library functions `find_first_of`, `substr`
  and `std::stoi` are written out as the C++ standard describes them.
-/

namespace ForkedNumberSorting

/-! ## Vector helpers -/

/-- The call `iter_swap(vect.begin()+i, vect.begin()+j)`: exchanges the
elements at positions `i` and `j`. -/
def iter_swap (vect : List Int) (i j : Nat) : List Int :=
  (vect.set i (vect.getD j 0)).set j (vect.getD i 0)

/-- The elements at positions `[startIndex, endIndex)` of a vector. -/
def slice (vect : List Int) (startIndex endIndex : Nat) : List Int :=
  (vect.take endIndex).drop startIndex

/-- Non-decreasing at positions `[startIndex, endIndex)`: adjacent elements
are in order. -/
def SortedOn (vect : List Int) (startIndex endIndex : Nat) : Prop :=
  ∀ a b, startIndex ≤ a → a ≤ b → b < endIndex → vect.getD a 0 ≤ vect.getD b 0

/-- The vectors agree at every position outside `[startIndex, endIndex)`. -/
def SameOutside (v w : List Int) (startIndex endIndex : Nat) : Prop :=
  ∀ k, k < startIndex ∨ endIndex ≤ k → v[k]? = w[k]?

/-! ## Quicksort (lines 282-316) -/

/-- One iteration of the `for` loop of `partition` (lines 289-293): the state
is the vector and `i`; `j` is the loop variable. -/
def partitionStep (pivot : Int) (st : List Int × Nat) (j : Nat) : List Int × Nat :=
  if st.1.getD j 0 ≤ pivot then (iter_swap st.1 st.2 j, st.2 + 1) else st

/-- The function `partition(vect, startIndex, endIndex)` (lines 282-299):
returns the vector after the scan together with the returned index `--i`. -/
def partition (vect : List Int) (startIndex endIndex : Nat) : List Int × Nat :=
  let pivot := vect.getD (endIndex - 1) 0
  let st := (List.range' startIndex (endIndex - startIndex)).foldl
    (partitionStep pivot) (vect, startIndex)
  (st.1, st.2 - 1)

/-- The function `quicksort(vect, startIndex, endIndex)` (lines 307-316) with
a bound on the depth of the recursion; `none` when the bound is reached. -/
def quicksortFuel : Nat → List Int → Nat → Nat → Option (List Int)
  | fuel, vect, startIndex, endIndex =>
    if startIndex < endIndex then
      match fuel with
      | 0 => none
      | fuel + 1 =>
        let p := partition vect startIndex endIndex
        (quicksortFuel fuel p.1 startIndex p.2).bind fun v =>
          quicksortFuel fuel v (p.2 + 1) endIndex
    else some vect

/-- The function `quicksort(vect, startIndex, endIndex)`: the depth of the
recursion is at most the length of the range. -/
def quicksort (vect : List Int) (startIndex endIndex : Nat) : Option (List Int) :=
  quicksortFuel (endIndex - startIndex) vect startIndex endIndex

/-! ## Merge (lines 325-360) -/

/-- The first `while` loop of `merge` (lines 335-347) with a bound on the
number of iterations: returns `combined`, `i` and `j` at the loop's exit. -/
def mergeLoop (leftV rightV : List Int) : Nat → List Int → Nat → Nat →
    Option (List Int × Nat × Nat)
  | fuel, combined, i, j =>
    if i < leftV.length ∧ j < rightV.length then
      match fuel with
      | 0 => none
      | fuel + 1 =>
        if leftV.getD i 0 ≤ rightV.getD j 0 then
          mergeLoop leftV rightV fuel (combined ++ [leftV.getD i 0]) (i + 1) j
        else
          mergeLoop leftV rightV fuel (combined ++ [rightV.getD j 0]) i (j + 1)
    else some (combined, i, j)

/-- The two trailing `while` loops of `merge` (lines 350-359): pushes the
elements of `v` at positions `i, i+1, ..., v.size()-1` onto `combined`. -/
def pushRest (combined v : List Int) (i : Nat) : List Int :=
  (List.range' i (v.length - i)).foldl (fun c k => c ++ [v.getD k 0]) combined

/-- The function `merge(combined, leftV, rightV)` (lines 325-360): the value
of `combined` afterwards. -/
def merge (combined leftV rightV : List Int) : Option (List Int) :=
  (quicksort leftV 0 leftV.length).bind fun l =>
  (quicksort rightV 0 rightV.length).bind fun r =>
  (mergeLoop l r (l.length + r.length) combined 0 0).map fun st =>
    pushRest (pushRest st.1 l st.2.1) r st.2.2

/-! ## The forked sort (lines 128-235) -/

/-- How one run of `sortInts` in one process ends. -/
inductive Outcome where
  /-- The process wrote these integers with `write(write_fd, ...)` and then
  called `exit(0)` (lines 148-149 and 229-230). -/
  | exited (written : List Int)
  /-- The call returned to its caller (line 235); the argument is the global
  `numList` at that moment. -/
  | returned (numList : List Int)
  /-- The process never gets past a `waitpid` or a `read`. -/
  | blocked
  deriving DecidableEq, Repr

/-- What the operating system does during one invocation of the recursive
case of `sortInts`. -/
structure Sched where
  /-- The call `pipe(pipefd)` returned 0 (otherwise -1, and `pipefd` stays
  uninitialised; its descriptors are taken to be invalid). -/
  pipeOk : Bool
  /-- The first `fork()` returned a process id (otherwise -1). -/
  leftForkOk : Bool
  /-- The second `fork()` returned a process id (otherwise -1). -/
  rightForkOk : Bool
  /-- The left worker's `write` reaches the shared pipe before the right
  worker's. -/
  leftFirst : Bool
  /-- The number of integers the pipe can hold before a `write` blocks. -/
  capacity : Nat
  /-- The contents of the uninitialised stack memory under `leftNums` and
  `rightNums`. -/
  junk : Nat → Int

/-- What a parent sees of one of its two workers. -/
inductive Child where
  /-- No such worker: `fork()` returned -1. -/
  | absent
  /-- The worker wrote these integers to `write_fd` and exited. -/
  | wrote (data : List Int)
  /-- The worker never terminates. -/
  | hung
  deriving DecidableEq, Repr

/-- The integers a worker has sent to its `write_fd`. -/
def Child.data : Child → List Int
  | .wrote d => d
  | _ => []

/-- One run of `sortInts`: how the process that made the call ends, and every
worker spawned below it (at any depth) with the vector it was given and how
it ended. -/
structure Run where
  outcome : Outcome
  workers : List (List Int × Outcome)
  deriving DecidableEq, Repr

/-- The call `copy(src.begin(), src.end(), dst.begin())`: the elements of `src`
overwrite the leading elements of `dst`. -/
def stdCopy (src dst : List Int) : List Int :=
  src ++ dst.drop src.length

/-- The function `convertVectToInt(vect, arr)` (lines 254-258). -/
def convertVectToInt (vect arr : List Int) : List Int :=
  stdCopy vect arr

/-- The function `convertIntToVect(vect, arr, size)` (lines 267-271). -/
def convertIntToVect (vect arr : List Int) (size : Nat) : List Int :=
  vect ++ arr.take size

/-- The vector `childnums` as declared on line 137: `numberList.size()/2`
zeros. -/
def childnums (numberList : List Int) : List Int :=
  List.replicate (numberList.length / 2) 0

/-- The vector handed to the left worker (line 165). -/
def leftChildnums (numberList : List Int) : List Int :=
  stdCopy (numberList.take (numberList.length / 2)) (childnums numberList)

/-- The vector handed to the right worker (lines 171-175). -/
def rightChildnums (numberList : List Int) : List Int :=
  stdCopy (numberList.drop (numberList.length / 2))
    (if numberList.length % 2 ≠ 0 then childnums numberList ++ [0] else childnums numberList)

/-- The size `lNumsSize` of line 189. -/
def lNumsSize (numberList : List Int) : Nat :=
  numberList.length / 2

/-- The size `rNumsSize` of lines 190-192. -/
def rNumsSize (numberList : List Int) : Nat :=
  if numberList.length % 2 ≠ 0 then numberList.length / 2 + 1 else numberList.length / 2

/-- The call `read(pipefd[0], buf, sizeof(int)*n)` on a valid pipe that holds
`pipe`, made by a process that keeps the write end open itself: with nothing
in the pipe the call never returns (`none`); otherwise it moves up to `n`
integers into the front of `buf`. Returns `buf` and what stays in the pipe. -/
def readPipe (pipe buf : List Int) (n : Nat) : Option (List Int × List Int) :=
  if n = 0 then some (buf, pipe)
  else if pipe = [] then none
  else some (stdCopy (pipe.take n) buf, pipe.drop n)

/-- The parent's part of the recursive case (lines 183-234), given what its
two workers did. -/
def parentPart (sch : Sched) (numList numberList : List Int) (lc rc : Child) :
    Option Outcome :=
  if lc = .hung ∨ rc = .hung then some .blocked
  else
    let written := if sch.leftFirst then lc.data ++ rc.data else rc.data ++ lc.data
    if sch.pipeOk = true ∧ sch.capacity < written.length then some .blocked
    else
      let leftJunk := (List.range' 0 (lNumsSize numberList)).map sch.junk
      let rightJunk :=
        (List.range' (lNumsSize numberList) (rNumsSize numberList)).map sch.junk
      match (if sch.pipeOk then readPipe written leftJunk (lNumsSize numberList)
          else some (leftJunk, [])) with
      | none => some .blocked
      | some (leftNums, rest) =>
        match (if sch.pipeOk then readPipe rest rightJunk (rNumsSize numberList)
            else some (rightJunk, [])) with
        | none => some .blocked
        | some (rightNums, _) =>
          let left := convertIntToVect [] leftNums (lNumsSize numberList)
          let right := convertIntToVect [] rightNums (rNumsSize numberList)
          (merge [] left right).map fun combined =>
            if numberList.length ≠ numList.length then
              .exited ((convertVectToInt combined
                (List.replicate numberList.length 0)).take combined.length)
            else .returned (stdCopy combined numList)

/-- One of the two `fork()` calls of line 159 together with the worker's
recursive call of line 179: what the parent sees of the worker, and the
workers spawned (the worker and everything below it). A worker whose call
returned would run on into the parent's block; the model does not follow it
(`none`). -/
def spawn (ok : Bool) (childnums : List Int) (r : Option Run) :
    Option (Child × List (List Int × Outcome)) :=
  if ok then
    r.bind fun run =>
      match run.outcome with
      | .exited w => some (.wrote w, (childnums, run.outcome) :: run.workers)
      | .blocked => some (.hung, (childnums, run.outcome) :: run.workers)
      | .returned _ => none
  else some (.absent, [])

/-- The function `sortInts(numberList, write_fd)` (lines 128-235). The global
`numList` is the explicit argument `numList`; `path` names the process in the
tree of workers (`false` for a left worker, `true` for a right one) and `os`
says what the operating system does for each process. The descriptor
`write_fd` is not an argument: what is written to it is recorded in the
outcome, and the parent decides whether it arrives. -/
def sortInts (os : List Bool → Sched) : Nat → List Bool → List Int → List Int → Option Run
  | fuel, path, numList, numberList =>
    if numberList.length ≤ 5 then
      (quicksort numberList 0 numberList.length).map fun sorted =>
        ⟨.exited ((convertVectToInt sorted
          (List.replicate numberList.length 0)).take numberList.length), []⟩
    else
      match fuel with
      | 0 => none
      | fuel + 1 =>
        (spawn (os path).leftForkOk (leftChildnums numberList)
          (sortInts os fuel (false :: path) numList (leftChildnums numberList))).bind fun l =>
        (spawn (os path).rightForkOk (rightChildnums numberList)
          (sortInts os fuel (true :: path) numList (rightChildnums numberList))).bind fun r =>
        (parentPart (os path) numList numberList l.1 r.1).map fun out =>
          ⟨out, l.2 ++ r.2⟩

/-- The call `sortInts(numList, 1)` of `main` (line 83): the vector passed is
a copy of the global `numList`. -/
def sort (os : List Bool → Sched) (numList : List Int) : Option Run :=
  sortInts os numList.length [] numList numList

/-- What `main` reports about the list after parsing (lines 66-87). -/
inductive Report where
  /-- The text "There are no integers to sort." -/
  | nothingToSort
  /-- The text "No sorting is needed, there is only one integer: " and it. -/
  | noSortingNeeded (x : Int)
  /-- The text "Finished sorting list: " followed by `numList`. -/
  | finished (numList : List Int)
  /-- The process ended or hung inside `sortInts`: line 85 is never reached. -/
  | notReached (outcome : Outcome)
  deriving DecidableEq, Repr

/-- The function `main` from line 66 on (lines 66-87): what it does with the
parsed `numList`. -/
def main (os : List Bool → Sched) (numList : List Int) : Option Report :=
  if numList.length < 1 then some .nothingToSort
  else if numList.length = 1 then some (.noSortingNeeded (numList.getD 0 0))
  else (sort os numList).map fun run =>
    match run.outcome with
    | .returned sorted => .finished sorted
    | other => .notReached other

/-- No resource or transfer failure: every `pipe` and `fork` succeeds and
every pipe holds `n` integers. -/
def Healthy (os : List Bool → Sched) (n : Nat) : Prop :=
  ∀ p, (os p).pipeOk = true ∧ (os p).leftForkOk = true ∧ (os p).rightForkOk = true ∧
    n ≤ (os p).capacity

/-- An operating system on which nothing fails: pipes of 64 KiB (16384
integers), the left worker always first. -/
def idealOs : List Bool → Sched :=
  fun _ => ⟨true, true, true, true, 16384, fun _ => 0⟩

/-- As `idealOs`, but the right worker always writes first. -/
def rightFirstOs : List Bool → Sched :=
  fun _ => ⟨true, true, true, false, 16384, fun _ => 0⟩

/-- As `idealOs`, but the `pipe` call of the top-level process fails. -/
def pipeFailOs : List Bool → Sched :=
  fun p => ⟨!p.isEmpty, true, true, true, 16384, fun _ => 0⟩

/-- As `idealOs`, but the first `fork()` of the top-level process fails. -/
def leftForkFailOs : List Bool → Sched :=
  fun p => ⟨true, !p.isEmpty, true, true, 16384, fun _ => 0⟩

/-- As `idealOs`, but the second `fork()` of the top-level process fails. -/
def rightForkFailOs : List Bool → Sched :=
  fun p => ⟨true, true, !p.isEmpty, true, 16384, fun _ => 0⟩

/-- What the parent deserialises on lines 185-205, given what its two workers
did: the vectors `left` and `right` handed to `merge`; `none` when the parent
never gets that far. -/
def readBack (sch : Sched) (numberList : List Int) (lc rc : Child) :
    Option (List Int × List Int) :=
  if lc = .hung ∨ rc = .hung then none
  else
    let written := if sch.leftFirst then lc.data ++ rc.data else rc.data ++ lc.data
    if sch.pipeOk = true ∧ sch.capacity < written.length then none
    else
      let leftJunk := (List.range' 0 (lNumsSize numberList)).map sch.junk
      let rightJunk :=
        (List.range' (lNumsSize numberList) (rNumsSize numberList)).map sch.junk
      match (if sch.pipeOk then readPipe written leftJunk (lNumsSize numberList)
          else some (leftJunk, [])) with
      | none => none
      | some (leftNums, rest) =>
        match (if sch.pipeOk then readPipe rest rightJunk (rNumsSize numberList)
            else some (rightJunk, [])) with
        | none => none
        | some (rightNums, _) =>
          some (convertIntToVect [] leftNums (lNumsSize numberList),
            convertIntToVect [] rightNums (rNumsSize numberList))

/-- One iteration of the `for` loop of `partition` (lines 289-293) that also
records the positions of the vector it touches: the read `vect[j]` and, when
the swap is taken, its two positions `i` and `j`. -/
def partitionStepLog (pivot : Int) (st : (List Int × Nat) × List Nat) (j : Nat) :
    (List Int × Nat) × List Nat :=
  if st.1.1.getD j 0 ≤ pivot then
    ((iter_swap st.1.1 st.1.2 j, st.1.2 + 1), st.2 ++ [j, st.1.2, j])
  else (st.1, st.2 ++ [j])

/-- The function `partition` (lines 282-299) together with the positions of
the vector it touches, the pivot read at `endIndex-1` first. -/
def partitionLog (vect : List Int) (startIndex endIndex : Nat) :
    (List Int × Nat) × List Nat :=
  let pivot := vect.getD (endIndex - 1) 0
  let st := (List.range' startIndex (endIndex - startIndex)).foldl
    (partitionStepLog pivot) ((vect, startIndex), [endIndex - 1])
  ((st.1.1, st.1.2 - 1), st.2)

/-- The function `quicksort` (lines 307-316) together with the positions of
the vector touched by it and by the calls it makes. -/
def quicksortLogFuel : Nat → List Int → Nat → Nat → Option (List Int × List Nat)
  | fuel, vect, startIndex, endIndex =>
    if startIndex < endIndex then
      match fuel with
      | 0 => none
      | fuel + 1 =>
        let p := partitionLog vect startIndex endIndex
        (quicksortLogFuel fuel p.1.1 startIndex p.1.2).bind fun r1 =>
          (quicksortLogFuel fuel r1.1 (p.1.2 + 1) endIndex).map fun r2 =>
            (r2.1, p.2 ++ r1.2 ++ r2.2)
    else some (vect, [])

/-- As `quicksort`, with the positions touched. -/
def quicksortLog (vect : List Int) (startIndex endIndex : Nat) :
    Option (List Int × List Nat) :=
  quicksortLogFuel (endIndex - startIndex) vect startIndex endIndex

/-! ## Parsing (lines 100-121)

A `string` is a `List Char`; positions are `Nat`, and `string::npos` (which the
source stores in an `int` as -1) is `none`. Strings are taken to be shorter
than `2^31` characters. -/

/-- The first position of a character of `delimiter` in `s`, if any. -/
def firstIn (delimiter : List Char) : List Char → Option Nat
  | [] => none
  | c :: cs => if c ∈ delimiter then some 0 else (firstIn delimiter cs).map (· + 1)

/-- The call `str.find_first_of(delimiter, pos)`: the first position at or
after `pos` that holds a character of `delimiter`; `none` for `npos`. -/
def find_first_of (str delimiter : List Char) (pos : Nat) : Option Nat :=
  (firstIn delimiter (str.drop pos)).map (· + pos)

/-- The call `str.substr(pos, count)`; `count = none` stands for a count that
reaches past the end of the string. -/
def substr (str : List Char) (pos : Nat) (count : Option Nat) : List Char :=
  match count with
  | some n => (str.drop pos).take n
  | none => str.drop pos

/-- The C function `isspace` in the default locale. -/
def isspace (c : Char) : Bool :=
  c.toNat = 32 || (9 ≤ c.toNat && c.toNat ≤ 13)

/-- The C function `isdigit`. -/
def isdigit (c : Char) : Bool :=
  48 ≤ c.toNat && c.toNat ≤ 57

/-- The value of a run of decimal digits. -/
def digitsValue (ds : List Char) : Nat :=
  ds.foldl (fun a c => 10 * a + (c.toNat - 48)) 0

/-- The library function `std::stoi(s)` in base 10: skips leading white
space, takes an optional sign and the longest run of digits; `none` when it
throws (`invalid_argument` without a digit, `out_of_range` outside the 32-bit
`int`). -/
def stoi (s : List Char) : Option Int :=
  match s.dropWhile isspace with
  | [] => none
  | c :: r =>
    let ds := (if c = '-' ∨ c = '+' then r else c :: r).takeWhile isdigit
    if ds = [] then none
    else
      let v : Int := if c = '-' then -(digitsValue ds : Int) else (digitsValue ds : Int)
      if -2147483648 ≤ v ∧ v ≤ 2147483647 then some v else none

/-- The `while` loop of `parseInts` (lines 105-114) with a bound on the number
of iterations. The state is `numList`, `startIndex` and `endIndex`. The outer
`none` means the bound was reached, the inner `none` that `stoi` threw. -/
def parseLoop (str delimiter : List Char) : Nat → List Int → Nat → Option Nat →
    Option (Option (List Int × Nat × Option Nat))
  | fuel, numList, startIndex, endIndex =>
    match endIndex with
    | none => some (some (numList, startIndex, endIndex))
    | some e =>
      if e < str.length then
        match fuel with
        | 0 => none
        | fuel + 1 =>
          match (if startIndex ≠ e
              then (stoi (substr str startIndex (some (e - startIndex)))).map
                fun x => numList ++ [x]
              else some numList) with
          | none => some none
          | some numList1 =>
            parseLoop str delimiter fuel numList1 (e + 1)
              (find_first_of str delimiter (e + 1))
      else some (some (numList, startIndex, endIndex))

/-- The last statement of `parseInts` (lines 117-118). After the loop
`endIndex` is -1, so the count `endIndex - startIndex` converts to a size
larger than the string. -/
def parseTail (str : List Char) (st : List Int × Nat × Option Nat) : Option (List Int) :=
  if st.2.1 < str.length then
    (stoi (substr str st.2.1
      (match st.2.2 with
        | none => none
        | some e => if st.2.1 ≤ e then some (e - st.2.1) else none))).map
      fun x => st.1 ++ [x]
  else some st.1

/-- The function `parseInts(str, delimiter, numList)` (lines 100-121): the
value of `numList` afterwards. The outer `none` means the loop bound was
reached, the inner `none` that `stoi` threw. -/
def parseInts (str delimiter : List Char) (numList : List Int) :
    Option (Option (List Int)) :=
  (parseLoop str delimiter (str.length + 1) numList 0 (find_first_of str delimiter 0)).map
    fun r => r.bind (parseTail str)

/-- The decimal writing of an integer: its digits, after a `-` when it is
negative. -/
def decimal (x : Int) : List Char :=
  if x < 0 then '-' :: Nat.toDigits 10 x.natAbs else Nat.toDigits 10 x.toNat

/-- A string built by writing the elements of a list in decimal, separated by
one or more characters of `delimiter`. -/
inductive Written (delimiter : List Char) : List Int → List Char → Prop where
  | nil : Written delimiter [] []
  | one (x : Int) : Written delimiter [x] (decimal x)
  | cons (x y : Int) (L : List Int) (sep s : List Char) :
      sep ≠ [] → (∀ c ∈ sep, c ∈ delimiter) → Written delimiter (y :: L) s →
      Written delimiter (x :: y :: L) (decimal x ++ sep ++ s)

/-- The invariant of the `for` loop of `partition` before iteration `j`:
positions `[s, i)` hold elements `≤ p`, positions `[i, j)` hold elements
`> p`, and everything from `j` on is still as in the vector `v0` the scan
started from. -/
structure PartInv (v0 : List Int) (s : Nat) (p : Int) (st : List Int × Nat) (j : Nat) :
    Prop where
  len : st.1.length = v0.length
  lo : s ≤ st.2
  hi : st.2 ≤ j
  small : ∀ k, s ≤ k → k < st.2 → st.1.getD k 0 ≤ p
  large : ∀ k, st.2 ≤ k → k < j → p < st.1.getD k 0
  frame : SameOutside st.1 v0 s j
  perm : st.1.Perm v0

/-! ## Facts about `iter_swap` and ranges -/

theorem length_iter_swap (v : List Int) (i j : Nat) :
    (iter_swap v i j).length = v.length := by
  simp [iter_swap]

theorem getElem?_iter_swap (v : List Int) (i j k : Nat) (hi : i < v.length)
    (hj : j < v.length) :
    (iter_swap v i j)[k]? = if k = j then v[i]? else if k = i then v[j]? else v[k]? := by
  unfold iter_swap
  rw [List.getElem?_set, List.getElem?_set]
  simp only [List.length_set, List.getD_eq_getElem?_getD, List.getElem?_eq_getElem hi,
    List.getElem?_eq_getElem hj, Option.getD_some]
  by_cases h1 : j = k
  · subst h1; simp [hj]
  · by_cases h2 : i = k
    · subst h2
      have h3 : ¬ i = j := fun h => h1 h.symm
      simp [h3, hi, h1]
    · have h1' : ¬ k = j := fun h => h1 h.symm
      have h2' : ¬ k = i := fun h => h2 h.symm
      simp [h1, h2, h1', h2']

theorem getD_iter_swap (v : List Int) (i j k : Nat) (hi : i < v.length)
    (hj : j < v.length) :
    (iter_swap v i j).getD k 0 =
      if k = j then v.getD i 0 else if k = i then v.getD j 0 else v.getD k 0 := by
  simp only [List.getD_eq_getElem?_getD, getElem?_iter_swap v i j k hi hj]
  split
  · rfl
  · split <;> rfl

theorem iter_swap_perm (v : List Int) (i j : Nat) (hi : i < v.length) (hj : j < v.length) :
    (iter_swap v i j).Perm v := by
  rw [List.perm_iff_count]
  intro a
  unfold iter_swap
  have hi' : v.getD i 0 = v[i] := by simp [List.getD_eq_getElem?_getD, hi]
  have hj' : v.getD j 0 = v[j] := by simp [List.getD_eq_getElem?_getD, hj]
  rw [hi', hj']
  have hj2 : j < (v.set i v[j]).length := by simpa using hj
  rw [List.count_set _ _ _ _ hj2, List.count_set _ _ _ _ hi, List.getElem_set]
  have ci : (if (v[i] == a) = true then 1 else 0) ≤ v.count a := by
    split
    · rename_i h
      have : v[i] = a := by simpa using h
      exact List.count_pos_iff.mpr (this ▸ List.getElem_mem hi)
    · omega
  by_cases hij : i = j
  · subst hij
    simp only [if_true]
    omega
  · simp only [hij, if_false]
    omega

theorem slice_length (v : List Int) (s e : Nat) (hse : s ≤ e) (he : e ≤ v.length) :
    (slice v s e).length = e - s := by
  simp [slice, List.length_drop, List.length_take]
  omega

theorem getElem?_slice (v : List Int) (s e k : Nat) :
    (slice v s e)[k]? = if s + k < e then v[s + k]? else none := by
  simp only [slice, List.getElem?_drop, List.getElem?_take]

theorem mem_slice (v : List Int) (s e : Nat) (he : e ≤ v.length) (x : Int) :
    x ∈ slice v s e ↔ ∃ k, s ≤ k ∧ k < e ∧ v.getD k 0 = x := by
  constructor
  · intro h
    obtain ⟨n, hn⟩ := List.mem_iff_getElem?.mp h
    rw [getElem?_slice] at hn
    split at hn
    · rename_i hlt
      refine ⟨s + n, by omega, hlt, ?_⟩
      simp [List.getD_eq_getElem?_getD, hn]
    · cases hn
  · rintro ⟨k, hs, hk, hx⟩
    refine List.mem_iff_getElem?.mpr ⟨k - s, ?_⟩
    rw [getElem?_slice]
    have hk2 : s + (k - s) = k := by omega
    have hkl : k < v.length := by omega
    rw [hk2, if_pos hk]
    simp only [List.getD_eq_getElem?_getD, List.getElem?_eq_getElem hkl, Option.getD_some] at hx
    rw [List.getElem?_eq_getElem hkl, hx]

theorem split_at_range (v : List Int) (s e : Nat) (hse : s ≤ e) :
    v = v.take s ++ (slice v s e ++ v.drop e) := by
  have h1 : v.take s = (v.take e).take s := by
    rw [List.take_take, Nat.min_eq_left hse]
  unfold slice
  rw [h1, ← List.append_assoc, List.take_append_drop, List.take_append_drop]

theorem take_eq_of_sameOutside (v w : List Int) (s e : Nat)
    (h : SameOutside v w s e) : v.take s = w.take s := by
  apply List.ext_getElem?
  intro k
  simp only [List.getElem?_take]
  split
  · exact h k (Or.inl (by assumption))
  · rfl

theorem drop_eq_of_sameOutside (v w : List Int) (s e : Nat)
    (h : SameOutside v w s e) : v.drop e = w.drop e := by
  apply List.ext_getElem?
  intro k
  simp only [List.getElem?_drop]
  exact h (e + k) (Or.inr (by omega))

/-- A permutation of the whole vector that leaves everything outside the
range in place permutes the range. -/
theorem slice_perm_of_sameOutside (v w : List Int) (s e : Nat) (hse : s ≤ e)
    (h : SameOutside v w s e) (hp : v.Perm w) :
    (slice v s e).Perm (slice w s e) := by
  have hv := split_at_range v s e hse
  have hw := split_at_range w s e hse
  rw [hv, hw, take_eq_of_sameOutside v w s e h, drop_eq_of_sameOutside v w s e h] at hp
  exact (List.perm_append_right_iff _).mp ((List.perm_append_left_iff _).mp hp)

/-! ## The scan of `partition` -/

theorem partInv_init (v0 : List Int) (s : Nat) (p : Int) : PartInv v0 s p (v0, s) s :=
  ⟨rfl, Nat.le_refl _, Nat.le_refl _, fun _ h1 h2 => absurd h2 (by dsimp only; omega),
    fun _ h1 h2 => absurd h2 (by dsimp only at h1; omega), fun _ _ => rfl, List.Perm.refl _⟩

theorem partitionStep_inv (v0 : List Int) (s : Nat) (p : Int) (st : List Int × Nat)
    (j : Nat) (h : PartInv v0 s p st j) (hj : j < v0.length) :
    PartInv v0 s p (partitionStep p st j) (j + 1) := by
  obtain ⟨v, i⟩ := st
  obtain ⟨hlen, hlo, hhi, hsmall, hlarge, hframe, hperm⟩ := h
  dsimp only at hlen hlo hhi hsmall hlarge hframe hperm
  have hjv : j < v.length := by omega
  have hiv : i < v.length := by omega
  by_cases hc : v.getD j 0 ≤ p
  · have hstep : partitionStep p (v, i) j = (iter_swap v i j, i + 1) := by
      unfold partitionStep
      exact if_pos hc
    rw [hstep]
    refine ⟨?_, ?_, ?_, ?_, ?_, ?_, ?_⟩
    · dsimp only
      rw [length_iter_swap]
      exact hlen
    · dsimp only
      omega
    · dsimp only
      omega
    · intro k hk1 hk2
      dsimp only at hk2 ⊢
      rw [getD_iter_swap v i j k hiv hjv]
      split
      · rename_i hkj
        have hij : i = j := by omega
        rw [hij]
        exact hc
      · split
        · exact hc
        · exact hsmall k hk1 (by omega)
    · intro k hk1 hk2
      dsimp only at hk1 ⊢
      rw [getD_iter_swap v i j k hiv hjv]
      split
      · exact hlarge i (Nat.le_refl _) (by omega)
      · split
        · omega
        · exact hlarge k (by omega) (by omega)
    · intro k hk
      dsimp only
      rw [getElem?_iter_swap v i j k hiv hjv]
      have h1 : ¬ k = j := by omega
      have h2 : ¬ k = i := by omega
      rw [if_neg h1, if_neg h2]
      exact hframe k (by omega)
    · exact (iter_swap_perm v i j hiv hjv).trans hperm
  · have hstep : partitionStep p (v, i) j = (v, i) := by
      unfold partitionStep
      exact if_neg hc
    rw [hstep]
    refine ⟨hlen, hlo, ?_, hsmall, ?_, ?_, hperm⟩
    · dsimp only
      omega
    · intro k hk1 hk2
      dsimp only at hk1 ⊢
      by_cases hkj : k = j
      · subst hkj
        omega
      · exact hlarge k hk1 (by omega)
    · intro k hk
      exact hframe k (by omega)

theorem partitionFold_inv (v0 : List Int) (s : Nat) (p : Int) :
    ∀ (n j : Nat) (st : List Int × Nat), PartInv v0 s p st j → j + n ≤ v0.length →
      PartInv v0 s p ((List.range' j n).foldl (partitionStep p) st) (j + n) := by
  intro n
  induction n with
  | zero =>
    intro j st h _
    simpa using h
  | succ n ih =>
    intro j st h hn
    rw [List.range'_succ, List.foldl_cons]
    have h1 := partitionStep_inv v0 s p st j h (by omega)
    have h2 := ih (j + 1) _ h1 (by omega)
    have e : j + 1 + n = j + (n + 1) := by omega
    rw [e] at h2
    exact h2

/-- What `partition` establishes on a non-empty range inside the vector. -/
theorem partition_spec (v : List Int) (s e : Nat) (hse : s < e) (he : e ≤ v.length) :
    (partition v s e).1.length = v.length ∧
    s ≤ (partition v s e).2 ∧ (partition v s e).2 < e ∧
    (partition v s e).1.getD (partition v s e).2 0 = v.getD (e - 1) 0 ∧
    (∀ k, s ≤ k → k < (partition v s e).2 →
      (partition v s e).1.getD k 0 ≤ v.getD (e - 1) 0) ∧
    (∀ k, (partition v s e).2 < k → k < e →
      v.getD (e - 1) 0 < (partition v s e).1.getD k 0) ∧
    SameOutside (partition v s e).1 v s e ∧
    (partition v s e).1.Perm v := by
  obtain ⟨n, hn⟩ : ∃ n, e - s = n + 1 := ⟨e - s - 1, by omega⟩
  have hlast : s + 1 * n = e - 1 := by omega
  have hfold := partitionFold_inv v s (v.getD (e - 1) 0) n s (v, s) (partInv_init v s _)
    (by omega)
  generalize hst : (List.range' s n).foldl (partitionStep (v.getD (e - 1) 0)) (v, s) = st
    at hfold
  have hsn : s + n = e - 1 := by omega
  rw [hsn] at hfold
  have hpiv : st.1.getD (e - 1) 0 = v.getD (e - 1) 0 := by
    simp only [List.getD_eq_getElem?_getD]
    rw [hfold.frame (e - 1) (Or.inr (Nat.le_refl _))]
  have hp : partition v s e = (iter_swap st.1 st.2 (e - 1), st.2) := by
    unfold partition
    dsimp only
    rw [hn, List.range'_concat, List.foldl_append, hst, hlast]
    simp only [List.foldl_cons, List.foldl_nil]
    unfold partitionStep
    rw [if_pos (by rw [hpiv])]
    rfl
  have hfin := partitionStep_inv v s _ st (e - 1) hfold (by omega)
  have hstep : partitionStep (v.getD (e - 1) 0) st (e - 1)
      = (iter_swap st.1 st.2 (e - 1), st.2 + 1) := by
    unfold partitionStep
    rw [if_pos (by rw [hpiv])]
  rw [hstep] at hfin
  have he1 : e - 1 + 1 = e := by omega
  rw [he1] at hfin
  obtain ⟨hlen, hlo, hhi, hsmall, hlarge, hframe, hperm⟩ := hfin
  dsimp only at hlen hlo hhi hsmall hlarge hframe hperm
  rw [hp]
  dsimp only
  have hi1 := hfold.hi
  have hlen1 := hfold.len
  have hlo1 := hfold.lo
  refine ⟨hlen, by omega, by omega, ?_, ?_, ?_, hframe, hperm⟩
  · rw [getD_iter_swap st.1 st.2 (e - 1) st.2 (by omega) (by omega)]
    split
    · rename_i h
      rw [h]
      exact hpiv
    · rw [if_pos rfl]
      exact hpiv
  · intro k hk1 hk2
    exact hsmall k hk1 (by omega)
  · intro k hk1 hk2
    exact hlarge k (by omega) hk2

/-! ## Quicksort -/

theorem getD_eq_of_sameOutside (v w : List Int) (s e k : Nat) (h : SameOutside v w s e)
    (hk : k < s ∨ e ≤ k) : v.getD k 0 = w.getD k 0 := by
  simp only [List.getD_eq_getElem?_getD, h k hk]

/-- A property of all elements of a range survives a permutation of the
vector that is confined to that range. -/
theorem forall_range_of_perm (P : Int → Prop) (v w : List Int) (s e : Nat) (hse : s ≤ e)
    (he : e ≤ w.length) (hl : v.length = w.length) (h : SameOutside v w s e)
    (hp : v.Perm w) (hw : ∀ k, s ≤ k → k < e → P (w.getD k 0)) :
    ∀ k, s ≤ k → k < e → P (v.getD k 0) := by
  intro k hk1 hk2
  have hmem : v.getD k 0 ∈ slice v s e :=
    (mem_slice v s e (by omega) _).mpr ⟨k, hk1, hk2, rfl⟩
  have hmem2 := (slice_perm_of_sameOutside v w s e hse h hp).mem_iff.mp hmem
  obtain ⟨k2, h1, h2, h3⟩ := (mem_slice w s e he _).mp hmem2
  rw [← h3]
  exact hw k2 h1 h2

theorem quicksortFuel_spec : ∀ (fuel : Nat) (v : List Int) (s e : Nat), s ≤ e →
    e ≤ v.length → e - s ≤ fuel →
    ∃ w, quicksortFuel fuel v s e = some w ∧ w.length = v.length ∧
      SameOutside w v s e ∧ w.Perm v ∧ SortedOn w s e := by
  intro fuel
  induction fuel with
  | zero =>
    intro v s e hse he hf
    refine ⟨v, ?_, rfl, fun _ _ => rfl, List.Perm.refl _, ?_⟩
    · unfold quicksortFuel
      rw [if_neg (by omega)]
    · intro a b h1 h2 h3
      omega
  | succ fuel ih =>
    intro v s e hse he hf
    by_cases hlt : s < e
    · obtain ⟨hlen1, hk1, hk2, hpiv, hsmall, hlarge, hframe1, hperm1⟩ :=
        partition_spec v s e hlt he
      generalize hp : partition v s e = p at hlen1 hk1 hk2 hpiv hsmall hlarge hframe1 hperm1
      obtain ⟨v1, k⟩ := p
      dsimp only at hlen1 hk1 hk2 hpiv hsmall hlarge hframe1 hperm1
      obtain ⟨v2, hq2, hlen2, hframe2, hperm2, hsorted2⟩ :=
        ih v1 s k hk1 (by omega) (by omega)
      obtain ⟨v3, hq3, hlen3, hframe3, hperm3, hsorted3⟩ :=
        ih v2 (k + 1) e (by omega) (by omega) (by omega)
      have hsmall2 := forall_range_of_perm (fun x => x ≤ v.getD (e - 1) 0) v2 v1 s k hk1
        (by omega) hlen2 hframe2 hperm2 hsmall
      have hlarge2 : ∀ a, k + 1 ≤ a → a < e → v.getD (e - 1) 0 < v2.getD a 0 := by
        intro a h1 h2
        rw [getD_eq_of_sameOutside v2 v1 s k a hframe2 (Or.inr (by omega))]
        exact hlarge a (by omega) h2
      have hlarge3 := forall_range_of_perm (fun x => v.getD (e - 1) 0 < x) v3 v2 (k + 1) e
        (by omega) (by omega) hlen3 hframe3 hperm3 hlarge2
      have hpiv2 : v2.getD k 0 = v.getD (e - 1) 0 := by
        rw [getD_eq_of_sameOutside v2 v1 s k k hframe2 (Or.inr (Nat.le_refl _))]
        exact hpiv
      have hkeep : ∀ a, a ≤ k → v3.getD a 0 = v2.getD a 0 := fun a ha =>
        getD_eq_of_sameOutside v3 v2 (k + 1) e a hframe3 (Or.inl (by omega))
      refine ⟨v3, ?_, by omega, ?_, (hperm3.trans hperm2).trans hperm1, ?_⟩
      · unfold quicksortFuel
        rw [if_pos hlt]
        dsimp only
        rw [hp]
        dsimp only
        rw [hq2, Option.some_bind, hq3]
      · intro a ha
        rw [hframe3 a (by omega), hframe2 a (by omega), hframe1 a ha]
      · intro a b h1 h2 h3
        by_cases hbk : b < k
        · rw [hkeep a (by omega), hkeep b (by omega)]
          exact hsorted2 a b h1 h2 hbk
        · by_cases hak : a < k
          · have ha : v3.getD a 0 ≤ v.getD (e - 1) 0 := by
              rw [hkeep a (by omega)]
              exact hsmall2 a h1 hak
            by_cases hbk2 : b = k
            · rw [hbk2, hkeep k (Nat.le_refl _), hpiv2]
              exact ha
            · exact le_of_lt (lt_of_le_of_lt ha (hlarge3 b (by omega) h3))
          · by_cases hak2 : a = k
            · by_cases hbk2 : b = k
              · rw [hak2, hbk2]
              · rw [hak2, hkeep k (Nat.le_refl _), hpiv2]
                exact le_of_lt (hlarge3 b (by omega) h3)
            · exact hsorted3 a b (by omega) h2 h3
    · refine ⟨v, ?_, rfl, fun _ _ => rfl, List.Perm.refl _, ?_⟩
      · unfold quicksortFuel
        rw [if_neg hlt]
      · intro a b h1 h2 h3
        omega

/-- What `quicksort` establishes on a range inside the vector. -/
theorem quicksort_spec (v : List Int) (s e : Nat) (hse : s ≤ e) (he : e ≤ v.length) :
    ∃ w, quicksort v s e = some w ∧ w.length = v.length ∧
      SameOutside w v s e ∧ w.Perm v ∧ SortedOn w s e :=
  quicksortFuel_spec (e - s) v s e hse he (Nat.le_refl _)

/-- A vector that is non-decreasing at all its positions is sorted. -/
theorem sorted_of_sortedOn (v : List Int) (h : SortedOn v 0 v.length) :
    v.Sorted (· ≤ ·) := by
  rw [List.Sorted, List.pairwise_iff_getElem]
  intro i j hi hj hij
  have := h i j (Nat.zero_le _) (Nat.le_of_lt hij) hj
  simpa [List.getD_eq_getElem?_getD, List.getElem?_eq_getElem hi,
    List.getElem?_eq_getElem hj] using this

/-- Sorting a whole vector with `quicksort`. -/
theorem quicksort_whole (v : List Int) :
    ∃ w, quicksort v 0 v.length = some w ∧ w.Perm v ∧ w.Sorted (· ≤ ·) := by
  obtain ⟨w, h1, h2, _, h4, h5⟩ := quicksort_spec v 0 v.length (Nat.zero_le _) (Nat.le_refl _)
  refine ⟨w, h1, h4, sorted_of_sortedOn w ?_⟩
  rw [h2]
  exact h5

/-! ## Merge -/

theorem pushRest_fold (v : List Int) : ∀ (n i : Nat) (c : List Int), n = v.length - i →
    (List.range' i n).foldl (fun c k => c ++ [v.getD k 0]) c = c ++ v.drop i := by
  intro n
  induction n with
  | zero =>
    intro i c h
    rw [List.drop_of_length_le (by omega)]
    simp
  | succ n ih =>
    intro i c h
    have hi : i < v.length := by omega
    rw [List.range'_succ, List.foldl_cons, ih (i + 1) _ (by omega),
      List.drop_eq_getElem_cons hi]
    simp [List.getD_eq_getElem?_getD, List.getElem?_eq_getElem hi]

theorem pushRest_eq (c v : List Int) (i : Nat) : pushRest c v i = c ++ v.drop i :=
  pushRest_fold v _ i c rfl

theorem getD_eq_getElem_of_lt (v : List Int) (i : Nat) (hi : i < v.length) :
    v.getD i 0 = v[i] := by
  simp [List.getD_eq_getElem?_getD, List.getElem?_eq_getElem hi]

/-- The three loops of `merge` append to `combined` a permutation of what is
left of both vectors, and a sorted one when both vectors are sorted. -/
theorem mergeLoop_spec (l r : List Int) : ∀ (fuel : Nat) (c : List Int) (i j : Nat),
    (l.length - i) + (r.length - j) ≤ fuel →
    ∃ m, (mergeLoop l r fuel c i j).map
        (fun st => pushRest (pushRest st.1 l st.2.1) r st.2.2) = some (c ++ m) ∧
      m.Perm (l.drop i ++ r.drop j) ∧
      (l.Sorted (· ≤ ·) → r.Sorted (· ≤ ·) → m.Sorted (· ≤ ·)) := by
  have hexit : ∀ (fuel : Nat) (c : List Int) (i j : Nat),
      ¬ (i < l.length ∧ j < r.length) →
      ∃ m, (mergeLoop l r fuel c i j).map
          (fun st => pushRest (pushRest st.1 l st.2.1) r st.2.2) = some (c ++ m) ∧
        m.Perm (l.drop i ++ r.drop j) ∧
        (l.Sorted (· ≤ ·) → r.Sorted (· ≤ ·) → m.Sorted (· ≤ ·)) := by
    intro fuel c i j hc
    refine ⟨l.drop i ++ r.drop j, ?_, List.Perm.refl _, ?_⟩
    · unfold mergeLoop
      rw [if_neg hc]
      simp only [Option.map_some', pushRest_eq, List.append_assoc]
    · intro hl hr
      by_cases hi : i < l.length
      · have hj : r.length ≤ j := by
          by_contra hj
          exact hc ⟨hi, by omega⟩
        rw [List.drop_of_length_le hj, List.append_nil]
        exact List.Pairwise.drop hl
      · rw [List.drop_of_length_le (by omega), List.nil_append]
        exact List.Pairwise.drop hr
  intro fuel
  induction fuel with
  | zero =>
    intro c i j hf
    exact hexit 0 c i j (by omega)
  | succ fuel ih =>
    intro c i j hf
    by_cases hc : i < l.length ∧ j < r.length
    · obtain ⟨hi, hj⟩ := hc
      have hli := getD_eq_getElem_of_lt l i hi
      have hrj := getD_eq_getElem_of_lt r j hj
      have hdl := List.drop_eq_getElem_cons hi
      have hdr := List.drop_eq_getElem_cons hj
      by_cases hle : l.getD i 0 ≤ r.getD j 0
      · obtain ⟨m, hm1, hm2, hm3⟩ := ih (c ++ [l.getD i 0]) (i + 1) j (by omega)
        refine ⟨l.getD i 0 :: m, ?_, ?_, ?_⟩
        · unfold mergeLoop
          rw [if_pos ⟨hi, hj⟩]
          dsimp only
          rw [if_pos hle, hm1]
          simp
        · rw [hdl, hli]
          exact List.Perm.cons _ hm2
        · intro hl hr
          refine List.sorted_cons.mpr ⟨?_, hm3 hl hr⟩
          intro b hb
          have hb2 := hm2.mem_iff.mp hb
          have hsl : (l.drop i).Sorted (· ≤ ·) := List.Pairwise.drop hl
          have hsr : (r.drop j).Sorted (· ≤ ·) := List.Pairwise.drop hr
          rw [hdl] at hsl
          rw [hdr] at hsr
          rw [hli] at hle ⊢
          rw [hrj] at hle
          rcases List.mem_append.mp hb2 with h | h
          · exact (List.sorted_cons.mp hsl).1 b h
          · rw [hdr] at h
            rcases List.mem_cons.mp h with h | h
            · rw [h]
              exact hle
            · exact le_trans hle ((List.sorted_cons.mp hsr).1 b h)
      · obtain ⟨m, hm1, hm2, hm3⟩ := ih (c ++ [r.getD j 0]) i (j + 1) (by omega)
        refine ⟨r.getD j 0 :: m, ?_, ?_, ?_⟩
        · unfold mergeLoop
          rw [if_pos ⟨hi, hj⟩]
          dsimp only
          rw [if_neg hle, hm1]
          simp
        · rw [hdr, hrj]
          exact (List.Perm.cons _ hm2).trans List.perm_middle.symm
        · intro hl hr
          refine List.sorted_cons.mpr ⟨?_, hm3 hl hr⟩
          intro b hb
          have hb2 := hm2.mem_iff.mp hb
          have hsl : (l.drop i).Sorted (· ≤ ·) := List.Pairwise.drop hl
          have hsr : (r.drop j).Sorted (· ≤ ·) := List.Pairwise.drop hr
          rw [hdl] at hsl
          rw [hdr] at hsr
          have hlt : r[j] < l[i] := by
            rw [hli, hrj] at hle
            exact lt_of_not_le hle
          rw [hrj]
          rcases List.mem_append.mp hb2 with h | h
          · rw [hdl] at h
            rcases List.mem_cons.mp h with h | h
            · rw [h]
              exact le_of_lt hlt
            · exact le_trans (le_of_lt hlt) ((List.sorted_cons.mp hsl).1 b h)
          · exact (List.sorted_cons.mp hsr).1 b h
    · exact hexit (fuel + 1) c i j hc

/-- The function `merge` always yields a result: `combined` followed by a
sorted permutation of the two vectors. -/
theorem merge_spec (c l r : List Int) :
    ∃ m, merge c l r = some (c ++ m) ∧ m.Perm (l ++ r) ∧ m.Sorted (· ≤ ·) := by
  obtain ⟨l2, hl1, hl2, hl3⟩ := quicksort_whole l
  obtain ⟨r2, hr1, hr2, hr3⟩ := quicksort_whole r
  obtain ⟨m, hm1, hm2, hm3⟩ := mergeLoop_spec l2 r2 (l2.length + r2.length) c 0 0 (by omega)
  refine ⟨m, ?_, ?_, hm3 hl3 hr3⟩
  · unfold merge
    rw [hl1, Option.some_bind, hr1, Option.some_bind]
    exact hm1
  · simp only [List.drop_zero] at hm2
    exact hm2.trans (List.Perm.append hl2 hr2)

/-! ## The forked sort -/

theorem stdCopy_of_length_le (src dst : List Int) (h : dst.length ≤ src.length) :
    stdCopy src dst = src := by
  unfold stdCopy
  rw [List.drop_of_length_le h, List.append_nil]

theorem leftChildnums_eq (v : List Int) : leftChildnums v = v.take (v.length / 2) := by
  unfold leftChildnums childnums
  apply stdCopy_of_length_le
  simp only [List.length_replicate, List.length_take]
  omega

theorem rightChildnums_eq (v : List Int) : rightChildnums v = v.drop (v.length / 2) := by
  unfold rightChildnums childnums
  apply stdCopy_of_length_le
  split <;> simp only [List.length_replicate, List.length_drop, List.length_append,
    List.length_singleton] <;> omega

theorem rNumsSize_eq (v : List Int) : rNumsSize v = v.length - v.length / 2 := by
  unfold rNumsSize
  split <;> omega

theorem readPipe_full (pipe buf : List Int) (n : Nat) (hn : 0 < n) (hb : buf.length = n)
    (hp : n ≤ pipe.length) : readPipe pipe buf n = some (pipe.take n, pipe.drop n) := by
  unfold readPipe
  have hne : pipe ≠ [] := by
    intro h
    rw [h] at hp
    simp at hp
    omega
  rw [if_neg (by omega), if_neg hne, stdCopy_of_length_le]
  rw [List.length_take]
  omega

theorem written_take (m : List Int) (n : Nat) :
    (convertVectToInt m (List.replicate n 0)).take m.length = m := by
  simp [convertVectToInt, stdCopy]

/-- The parent's part when nothing fails: both workers' outputs arrive in
either order, and the merge yields a sorted permutation of them. -/
theorem parentPart_healthy (sch : Sched) (numList numberList lo ro : List Int)
    (hp : sch.pipeOk = true) (hcap : numberList.length ≤ sch.capacity)
    (hl : lo.length = lNumsSize numberList) (hr : ro.length = rNumsSize numberList)
    (hn : 0 < lNumsSize numberList) :
    ∃ m, parentPart sch numList numberList (.wrote lo) (.wrote ro) =
        some (if numberList.length ≠ numList.length then .exited m
          else .returned (stdCopy m numList)) ∧
      m.Perm (lo ++ ro) ∧ m.Sorted (· ≤ ·) := by
  have hr2 := rNumsSize_eq numberList
  have hl2 : lNumsSize numberList = numberList.length / 2 := rfl
  generalize hw : (if sch.leftFirst = true then lo ++ ro else ro ++ lo) = w
  have hwlen : w.length = lNumsSize numberList + rNumsSize numberList := by
    rw [← hw]
    split <;> simp only [List.length_append] <;> omega
  have hwperm : w.Perm (lo ++ ro) := by
    rw [← hw]
    split
    · exact List.Perm.refl _
    · exact List.perm_append_comm
  obtain ⟨m, hm1, hm2, hm3⟩ := merge_spec [] (w.take (lNumsSize numberList))
    (w.drop (lNumsSize numberList))
  rw [List.nil_append] at hm1
  rw [List.take_append_drop] at hm2
  refine ⟨m, ?_, hm2.trans hwperm, hm3⟩
  unfold parentPart
  rw [if_neg (by simp)]
  simp only [Child.data, hw, hp, if_true]
  rw [if_neg (by omega)]
  rw [readPipe_full w _ (lNumsSize numberList) hn (by simp) (by omega)]
  dsimp only
  rw [readPipe_full (w.drop (lNumsSize numberList)) _ (rNumsSize numberList) (by omega)
    (by simp) (by rw [List.length_drop]; omega)]
  dsimp only
  have h1 : convertIntToVect [] (w.take (lNumsSize numberList)) (lNumsSize numberList)
      = w.take (lNumsSize numberList) := by
    simp [convertIntToVect, List.take_take]
  have h2 : convertIntToVect []
      ((w.drop (lNumsSize numberList)).take (rNumsSize numberList)) (rNumsSize numberList)
      = w.drop (lNumsSize numberList) := by
    simp only [convertIntToVect, List.take_take, List.nil_append, Nat.min_self]
    apply List.take_of_length_le
    rw [List.length_drop]
    omega
  rw [h1, h2, hm1]
  simp only [Option.map_some', written_take]

/-- With nothing failing, a call of `sortInts` on a vector no longer than the
global `numList` ends with a sorted permutation of its vector: written to
`write_fd` before `exit(0)` on the leaf path and in every worker, stored in
`numList` before returning in the top-level call of the recursive case. -/
theorem sortInts_spec (os : List Bool → Sched) (numList : List Int)
    (h : Healthy os numList.length) :
    ∀ (fuel : Nat) (path : List Bool) (numberList : List Int),
      numberList.length ≤ numList.length → numberList.length ≤ fuel →
      ∃ out ws, sortInts os fuel path numList numberList =
          some ⟨(if numberList.length ≤ 5 ∨ numberList.length ≠ numList.length
            then .exited out else .returned (stdCopy out numList)), ws⟩ ∧
        out.Perm numberList ∧ out.Sorted (· ≤ ·) := by
  have hleaf : ∀ (fuel : Nat) (path : List Bool) (numberList : List Int),
      numberList.length ≤ 5 →
      ∃ out ws, sortInts os fuel path numList numberList =
          some ⟨(if numberList.length ≤ 5 ∨ numberList.length ≠ numList.length
            then .exited out else .returned (stdCopy out numList)), ws⟩ ∧
        out.Perm numberList ∧ out.Sorted (· ≤ ·) := by
    intro fuel path numberList h5
    obtain ⟨w, hw1, hw2, hw3⟩ := quicksort_whole numberList
    refine ⟨w, [], ?_, hw2, hw3⟩
    unfold sortInts
    rw [if_pos h5, hw1, if_pos (Or.inl h5)]
    simp only [Option.map_some']
    rw [← hw2.length_eq, written_take]
  intro fuel
  induction fuel with
  | zero =>
    intro path numberList _ hf
    exact hleaf 0 path numberList (by omega)
  | succ fuel ih =>
    intro path numberList hle hf
    by_cases h5 : numberList.length ≤ 5
    · exact hleaf (fuel + 1) path numberList h5
    · have hlc := leftChildnums_eq numberList
      have hrc := rightChildnums_eq numberList
      have hllen : (leftChildnums numberList).length = numberList.length / 2 := by
        rw [hlc, List.length_take]
        omega
      have hrlen : (rightChildnums numberList).length
          = numberList.length - numberList.length / 2 := by
        rw [hrc, List.length_drop]
      obtain ⟨lo, lws, hlo1, hlo2, hlo3⟩ :=
        ih (false :: path) (leftChildnums numberList) (by omega) (by omega)
      obtain ⟨ro, rws, hro1, hro2, hro3⟩ :=
        ih (true :: path) (rightChildnums numberList) (by omega) (by omega)
      rw [if_pos (Or.inr (by omega))] at hlo1 hro1
      obtain ⟨hpipe, hlf, hrf, hcap⟩ := h path
      obtain ⟨m, hm1, hm2, hm3⟩ := parentPart_healthy (os path) numList numberList lo ro
        hpipe (by omega) (by rw [hlo2.length_eq, hllen]; rfl)
        (by rw [hro2.length_eq, hrlen, rNumsSize_eq])
        (by show 0 < numberList.length / 2; omega)
      refine ⟨m, ((leftChildnums numberList, Outcome.exited lo) :: lws) ++
        ((rightChildnums numberList, Outcome.exited ro) :: rws), ?_, ?_, hm3⟩
      · unfold sortInts
        rw [if_neg h5]
        dsimp only
        rw [hlo1, hro1, hlf, hrf]
        simp only [spawn, if_true, Option.some_bind, hm1, Option.map_some']
        have hc : (numberList.length ≤ 5 ∨ numberList.length ≠ numList.length)
            ↔ numberList.length ≠ numList.length := by
          constructor
          · rintro (h | h)
            · exact absurd h h5
            · exact h
          · exact Or.inr
        simp only [hc]
      · refine hm2.trans ((List.Perm.append hlo2 hro2).trans ?_)
        rw [hlc, hrc, List.take_append_drop]

/-- On the leaf path (lines 140-150) the process writes the quicksorted
vector and exits; it spawns nothing. -/
theorem sortInts_leaf (os : List Bool → Sched) (fuel : Nat) (path : List Bool)
    (numList numberList : List Int) (h5 : numberList.length ≤ 5) :
    ∃ sorted, quicksort numberList 0 numberList.length = some sorted ∧
      sortInts os fuel path numList numberList = some ⟨.exited sorted, []⟩ ∧
      sorted.Perm numberList ∧ sorted.Sorted (· ≤ ·) := by
  obtain ⟨w, hw1, hw2, hw3⟩ := quicksort_whole numberList
  refine ⟨w, hw1, ?_, hw2, hw3⟩
  unfold sortInts
  rw [if_pos h5, hw1]
  simp only [Option.map_some']
  rw [← hw2.length_eq, written_take]

theorem merge_map_total (f : List Int → Outcome) (l r : List Int) :
    ∃ out, (merge [] l r).map f = some out := by
  obtain ⟨m, hm, _⟩ := merge_spec [] l r
  rw [hm]
  exact ⟨_, rfl⟩

/-- The parent's part always has an outcome in the model, whatever the
operating system does. -/
theorem parentPart_total (sch : Sched) (numList numberList : List Int) (lc rc : Child) :
    ∃ out, parentPart sch numList numberList lc rc = some out := by
  unfold parentPart
  split
  · exact ⟨_, rfl⟩
  · dsimp only
    repeat' split
    all_goals first | exact ⟨_, rfl⟩ | exact merge_map_total _ _ _

theorem healthy_idealOs (n : Nat) (hn : n ≤ 16384) : Healthy idealOs n :=
  fun _ => ⟨rfl, rfl, rfl, hn⟩

theorem healthy_rightFirstOs (n : Nat) (hn : n ≤ 16384) : Healthy rightFirstOs n :=
  fun _ => ⟨rfl, rfl, rfl, hn⟩

/-- The top-level call when nothing fails: a sorted permutation of the input,
written before `exit(0)` for at most 5 elements and stored in `numList`
before returning for more. -/
theorem sort_spec (os : List Bool → Sched) (S : List Int) (h : Healthy os S.length) :
    ∃ out ws, sort os S =
        some ⟨(if S.length ≤ 5 then .exited out else .returned out), ws⟩ ∧
      out.Perm S ∧ out.Sorted (· ≤ ·) := by
  obtain ⟨out, ws, h1, h2, h3⟩ :=
    sortInts_spec os S h S.length [] S (Nat.le_refl _) (Nat.le_refl _)
  refine ⟨out, ws, ?_, h2, h3⟩
  unfold sort
  rw [h1, stdCopy_of_length_le out S (by rw [h2.length_eq])]
  have hc : (S.length ≤ 5 ∨ S.length ≠ S.length) ↔ S.length ≤ 5 := by
    constructor
    · rintro (h | h)
      · exact h
      · exact absurd rfl h
    · exact Or.inl
  simp only [hc]

theorem sorted_slice_of_sortedOn (w : List Int) (s e : Nat) (he : e ≤ w.length)
    (h : SortedOn w s e) : (slice w s e).Sorted (· ≤ ·) := by
  rw [List.Sorted, List.pairwise_iff_getElem]
  intro i j hi hj hij
  have h1 : (slice w s e)[i]? = some (slice w s e)[i] := List.getElem?_eq_getElem hi
  have h2 : (slice w s e)[j]? = some (slice w s e)[j] := List.getElem?_eq_getElem hj
  rw [getElem?_slice] at h1 h2
  by_cases hse : s ≤ e
  · rw [slice_length w s e hse he] at hi hj
    rw [if_pos (by omega)] at h1 h2
    have := h (s + i) (s + j) (by omega) (by omega) (by omega)
    simpa [List.getD_eq_getElem?_getD, h1, h2] using this
  · have : (slice w s e).length = 0 := by
      simp only [slice, List.length_drop, List.length_take]
      omega
    omega

/-- One level of the recursive case when both `fork()` calls succeed and
neither worker returns from its call: the run lists the left worker, whatever
it spawned, the right worker, and whatever that one spawned. -/
theorem sortInts_split (os : List Bool → Sched) (fuel : Nat) (path : List Bool)
    (numList numberList : List Int) (h5 : 5 < numberList.length)
    (hl : (os path).leftForkOk = true) (hr : (os path).rightForkOk = true)
    (lrun rrun : Run)
    (hlr : sortInts os fuel (false :: path) numList (leftChildnums numberList) = some lrun)
    (hrr : sortInts os fuel (true :: path) numList (rightChildnums numberList) = some rrun)
    (hlo : ∀ x, lrun.outcome ≠ .returned x) (hro : ∀ x, rrun.outcome ≠ .returned x) :
    ∃ out, sortInts os (fuel + 1) path numList numberList =
      some ⟨out, ((leftChildnums numberList, lrun.outcome) :: lrun.workers) ++
        ((rightChildnums numberList, rrun.outcome) :: rrun.workers)⟩ := by
  unfold sortInts
  rw [if_neg (by omega)]
  dsimp only
  rw [hlr, hrr, hl, hr]
  obtain ⟨lo, lws⟩ := lrun
  obtain ⟨ro, rws⟩ := rrun
  cases lo with
  | returned x => exact absurd rfl (hlo x)
  | exited lw =>
    cases ro with
    | returned x => exact absurd rfl (hro x)
    | exited rw =>
      obtain ⟨out, hout⟩ := parentPart_total (os path) numList numberList (.wrote lw) (.wrote rw)
      exact ⟨out, by simp only [spawn, if_true, Option.some_bind, hout, Option.map_some']⟩
    | blocked =>
      obtain ⟨out, hout⟩ := parentPart_total (os path) numList numberList (.wrote lw) .hung
      exact ⟨out, by simp only [spawn, if_true, Option.some_bind, hout, Option.map_some']⟩
  | blocked =>
    cases ro with
    | returned x => exact absurd rfl (hro x)
    | exited rw =>
      obtain ⟨out, hout⟩ := parentPart_total (os path) numList numberList .hung (.wrote rw)
      exact ⟨out, by simp only [spawn, if_true, Option.some_bind, hout, Option.map_some']⟩
    | blocked =>
      obtain ⟨out, hout⟩ := parentPart_total (os path) numList numberList .hung .hung
      exact ⟨out, by simp only [spawn, if_true, Option.some_bind, hout, Option.map_some']⟩

theorem spawn_total (ok : Bool) (childnums : List Int) (run : Run)
    (h : ∀ x, run.outcome ≠ .returned x) :
    ∃ c ws, spawn ok childnums (some run) = some (c, ws) := by
  obtain ⟨o, ws⟩ := run
  cases ok with
  | false => exact ⟨_, _, rfl⟩
  | true =>
    cases o with
    | returned x => exact absurd rfl (h x)
    | exited w => exact ⟨_, _, rfl⟩
    | blocked => exact ⟨_, _, rfl⟩

/-- Only the invocation whose vector is as long as `numList` stores its
result and returns (lines 222-233). -/
theorem parentPart_not_returned (sch : Sched) (numList numberList : List Int)
    (lc rc : Child) (hne : numberList.length ≠ numList.length) (out : Outcome)
    (h : parentPart sch numList numberList lc rc = some out) :
    ∀ x, out ≠ .returned x := by
  intro x hx
  subst hx
  unfold parentPart at h
  split at h
  · cases h
  · dsimp only at h
    repeat' split at h
    all_goals first
      | cases h
      | (rw [Option.map_eq_some'] at h
         obtain ⟨c, _, hc⟩ := h
         cases hc)

/-- Every call of `sortInts` on a vector no longer than `numList` has an
outcome in the model, whatever the operating system does, and a call on a
strictly shorter vector (every worker) never returns to its caller. -/
theorem sortInts_total (os : List Bool → Sched) (numList : List Int) :
    ∀ (fuel : Nat) (path : List Bool) (numberList : List Int),
      numberList.length ≤ numList.length → numberList.length ≤ fuel →
      ∃ run, sortInts os fuel path numList numberList = some run ∧
        (numberList.length ≠ numList.length → ∀ x, run.outcome ≠ .returned x) := by
  have hleaf : ∀ (fuel : Nat) (path : List Bool) (numberList : List Int),
      numberList.length ≤ 5 →
      ∃ run, sortInts os fuel path numList numberList = some run ∧
        (numberList.length ≠ numList.length → ∀ x, run.outcome ≠ .returned x) := by
    intro fuel path numberList h5
    obtain ⟨w, _, hw, _⟩ := sortInts_leaf os fuel path numList numberList h5
    exact ⟨_, hw, fun _ x hx => by cases hx⟩
  intro fuel
  induction fuel with
  | zero =>
    intro path numberList _ hf
    exact hleaf 0 path numberList (by omega)
  | succ fuel ih =>
    intro path numberList hle hf
    by_cases h5 : numberList.length ≤ 5
    · exact hleaf (fuel + 1) path numberList h5
    · have hllen : (leftChildnums numberList).length = numberList.length / 2 := by
        rw [leftChildnums_eq, List.length_take]
        omega
      have hrlen : (rightChildnums numberList).length
          = numberList.length - numberList.length / 2 := by
        rw [rightChildnums_eq, List.length_drop]
      obtain ⟨lrun, hl1, hl2⟩ :=
        ih (false :: path) (leftChildnums numberList) (by omega) (by omega)
      obtain ⟨rrun, hr1, hr2⟩ :=
        ih (true :: path) (rightChildnums numberList) (by omega) (by omega)
      obtain ⟨lc, lws, hls⟩ := spawn_total (os path).leftForkOk (leftChildnums numberList)
        lrun (hl2 (by omega))
      obtain ⟨rc, rws, hrs⟩ := spawn_total (os path).rightForkOk (rightChildnums numberList)
        rrun (hr2 (by omega))
      obtain ⟨out, hout⟩ := parentPart_total (os path) numList numberList lc rc
      refine ⟨⟨out, lws ++ rws⟩, ?_, ?_⟩
      · unfold sortInts
        rw [if_neg h5]
        dsimp only
        rw [hl1, hr1, hls, hrs]
        simp only [Option.some_bind, hout, Option.map_some']
      · intro hne
        exact parentPart_not_returned (os path) numList numberList lc rc hne out hout

/-! ## The claims -/

/-- C1. Sortedness of the whole sort: when every worker's output is
delivered intact, sorting `S` ends with a sequence `out` (transmitted on the
leaf path when `|S| ≤ 5`, stored in the caller's buffer when `|S| > 5`) that
is non-decreasing: every adjacent pair satisfies `out[i] ≤ out[i+1]`; and
`[5,3,8,1,9,2,7]` sorts to `[1,2,3,5,7,8,9]`. -/
theorem sort_sorted (os : List Bool → Sched) (S : List Int) (h : Healthy os S.length) :
    ∃ out ws, sort os S =
        some ⟨(if S.length ≤ 5 then .exited out else .returned out), ws⟩ ∧
      out.Sorted (· ≤ ·) ∧
      (∀ i (hi : i + 1 < out.length), out[i] ≤ out[i + 1]) ∧
      (S = [5, 3, 8, 1, 9, 2, 7] → out = [1, 2, 3, 5, 7, 8, 9]) := by
  obtain ⟨out, ws, h1, h2, h3⟩ := sort_spec os S h
  refine ⟨out, ws, h1, h3, ?_, ?_⟩
  · intro i hi
    exact (List.pairwise_iff_getElem.mp h3) i (i + 1) (by omega) hi (by omega)
  · intro hS
    subst hS
    exact List.eq_of_perm_of_sorted (h2.trans (by decide)) h3 (by decide)

theorem sort_sorted_witness :
    Healthy idealOs [5, 3, 8, 1, 9, 2, 7].length ∧
    (∃ out ws, sort idealOs [5, 3, 8, 1, 9, 2, 7] =
        some ⟨(if [5, 3, 8, 1, 9, 2, 7].length ≤ 5 then .exited out else .returned out), ws⟩ ∧
      out.Sorted (· ≤ ·) ∧
      (∀ i (hi : i + 1 < out.length), out[i] ≤ out[i + 1]) ∧
      (([5, 3, 8, 1, 9, 2, 7] : List Int) = [5, 3, 8, 1, 9, 2, 7] →
        out = [1, 2, 3, 5, 7, 8, 9])) ∧
    (sort idealOs [5, 3, 8, 1, 9, 2, 7]).map Run.outcome =
      some (.returned [1, 2, 3, 5, 7, 8, 9]) :=
  ⟨healthy_idealOs _ (by decide),
    sort_sorted idealOs [5, 3, 8, 1, 9, 2, 7] (healthy_idealOs _ (by decide)), by decide⟩

/-- C3. Merge output is sorted: for every pair of vectors `left` and `right`,
sorted or not, `merge(combined = [], left, right)` yields a `combined` that
is non-decreasing. -/
theorem merge_sorted (left right : List Int) :
    ∃ combined, merge [] left right = some combined ∧ combined.Sorted (· ≤ ·) ∧
      ∀ i (hi : i + 1 < combined.length), combined[i] ≤ combined[i + 1] := by
  obtain ⟨m, h1, _, h3⟩ := merge_spec [] left right
  refine ⟨m, h1, h3, ?_⟩
  intro i hi
  exact (List.pairwise_iff_getElem.mp h3) i (i + 1) (by omega) hi (by omega)

/-- C4. Merge keeps every element: for every pair of vectors `left` and
`right`, `merge(combined = [], left, right)` yields a `combined` of length
`left.length + right.length` whose multiset is the sum of those of `left` and
`right`; and `merge([1,3,5],[2,2,6]) = [1,2,2,3,5,6]`. -/
theorem merge_keeps_elements :
    (∀ left right : List Int, ∃ combined, merge [] left right = some combined ∧
      combined.length = left.length + right.length ∧ combined.Perm (left ++ right) ∧
      (combined : Multiset Int) = (left : Multiset Int) + (right : Multiset Int)) ∧
    merge [] [1, 3, 5] [2, 2, 6] = some [1, 2, 2, 3, 5, 6] := by
  refine ⟨?_, by decide⟩
  intro left right
  obtain ⟨m, h1, h2, _⟩ := merge_spec [] left right
  refine ⟨m, h1, ?_, h2, ?_⟩
  · rw [h2.length_eq, List.length_append]
  · rw [Multiset.coe_add]
    exact Multiset.coe_eq_coe.mpr h2

/-- C5. Quicksort sorts its range: for `0 ≤ start ≤ end ≤ v.size()`, the call
`quicksort(v, start, end)` finishes, and afterwards the elements at positions
`[start, end)` are non-decreasing and are a permutation of the elements that
were there before. -/
theorem quicksort_sorts_range (v : List Int) (startIndex endIndex : Nat)
    (hse : startIndex ≤ endIndex) (he : endIndex ≤ v.length) :
    ∃ w, quicksort v startIndex endIndex = some w ∧
      (∀ a b, startIndex ≤ a → a ≤ b → b < endIndex → w.getD a 0 ≤ w.getD b 0) ∧
      (slice w startIndex endIndex).Sorted (· ≤ ·) ∧
      (slice w startIndex endIndex).Perm (slice v startIndex endIndex) := by
  obtain ⟨w, h1, h2, h3, h4, h5⟩ := quicksort_spec v startIndex endIndex hse he
  exact ⟨w, h1, h5, sorted_slice_of_sortedOn w _ _ (by omega) h5,
    slice_perm_of_sameOutside w v _ _ hse h3 h4⟩

theorem quicksort_sorts_range_witness :
    (2 ≤ 6 ∧ 6 ≤ [5, 3, 8, 1, 9, 2, 7].length) ∧
    (∃ w, quicksort [5, 3, 8, 1, 9, 2, 7] 2 6 = some w ∧
      (∀ a b, 2 ≤ a → a ≤ b → b < 6 → w.getD a 0 ≤ w.getD b 0) ∧
      (slice w 2 6).Sorted (· ≤ ·) ∧
      (slice w 2 6).Perm (slice [5, 3, 8, 1, 9, 2, 7] 2 6)) ∧
    quicksort [5, 3, 8, 1, 9, 2, 7] 2 6 = some [5, 3, 1, 2, 8, 9, 7] ∧
    quicksort [4, 4, 4, 4] 0 4 = some [4, 4, 4, 4] ∧
    quicksort [1, 2, 3, 4] 0 4 = some [1, 2, 3, 4] :=
  ⟨⟨by decide, by decide⟩,
    quicksort_sorts_range [5, 3, 8, 1, 9, 2, 7] 2 6 (by decide) (by decide),
    by decide, by decide, by decide⟩

/-- C6. Partition returns the pivot's final resting index: for
`0 ≤ start < end ≤ v.size()` and `p` the value of `v[end-1]` before the call,
`partition(v, start, end)` returns `k` with `start ≤ k ≤ end-1` such that
afterwards `v[k] = p`, every element at `[start, k)` is `≤ p`, every element
at `(k, end)` is `> p`, and the range `[start, end)` is a permutation of its
former contents. -/
theorem partition_pivot_index (v : List Int) (startIndex endIndex : Nat)
    (hse : startIndex < endIndex) (he : endIndex ≤ v.length) :
    startIndex ≤ (partition v startIndex endIndex).2 ∧
    (partition v startIndex endIndex).2 ≤ endIndex - 1 ∧
    (partition v startIndex endIndex).1.getD (partition v startIndex endIndex).2 0
      = v.getD (endIndex - 1) 0 ∧
    (∀ k, startIndex ≤ k → k < (partition v startIndex endIndex).2 →
      (partition v startIndex endIndex).1.getD k 0 ≤ v.getD (endIndex - 1) 0) ∧
    (∀ k, (partition v startIndex endIndex).2 < k → k < endIndex →
      v.getD (endIndex - 1) 0 < (partition v startIndex endIndex).1.getD k 0) ∧
    (slice (partition v startIndex endIndex).1 startIndex endIndex).Perm
      (slice v startIndex endIndex) := by
  obtain ⟨_, h2, h3, h4, h5, h6, h7, h8⟩ := partition_spec v startIndex endIndex hse he
  exact ⟨h2, by omega, h4, h5, h6,
    slice_perm_of_sameOutside _ v _ _ (Nat.le_of_lt hse) h7 h8⟩

theorem partition_pivot_index_witness :
    (1 < 6 ∧ 6 ≤ [5, 3, 8, 1, 9, 2, 7].length) ∧
    partition [5, 3, 8, 1, 9, 2, 7] 1 6 = ([5, 1, 2, 3, 9, 8, 7], 2) ∧
    (1 ≤ (partition [5, 3, 8, 1, 9, 2, 7] 1 6).2 ∧
    (partition [5, 3, 8, 1, 9, 2, 7] 1 6).2 ≤ 6 - 1 ∧
    (partition [5, 3, 8, 1, 9, 2, 7] 1 6).1.getD (partition [5, 3, 8, 1, 9, 2, 7] 1 6).2 0
      = ([5, 3, 8, 1, 9, 2, 7] : List Int).getD (6 - 1) 0 ∧
    (∀ k, 1 ≤ k → k < (partition [5, 3, 8, 1, 9, 2, 7] 1 6).2 →
      (partition [5, 3, 8, 1, 9, 2, 7] 1 6).1.getD k 0
        ≤ ([5, 3, 8, 1, 9, 2, 7] : List Int).getD (6 - 1) 0) ∧
    (∀ k, (partition [5, 3, 8, 1, 9, 2, 7] 1 6).2 < k → k < 6 →
      ([5, 3, 8, 1, 9, 2, 7] : List Int).getD (6 - 1) 0
        < (partition [5, 3, 8, 1, 9, 2, 7] 1 6).1.getD k 0) ∧
    (slice (partition [5, 3, 8, 1, 9, 2, 7] 1 6).1 1 6).Perm
      (slice [5, 3, 8, 1, 9, 2, 7] 1 6)) :=
  ⟨⟨by decide, by decide⟩, by decide,
    partition_pivot_index [5, 3, 8, 1, 9, 2, 7] 1 6 (by decide) (by decide)⟩

/-- C7. Split shape: with `mid = n / 2`, the left worker receives exactly
`sequence[0:mid]` and the right worker exactly `sequence[mid:n]`, so that
`left ++ right = sequence`, the lengths add up to `n`, the right part is longer
by one exactly when `n` is odd, and `lNumsSize` and `rNumsSize` are these two
lengths; a sequence of length 7 splits into lengths 3 and 4. -/
theorem split_shape (numberList : List Int) :
    leftChildnums numberList = numberList.take (numberList.length / 2) ∧
    rightChildnums numberList = numberList.drop (numberList.length / 2) ∧
    leftChildnums numberList ++ rightChildnums numberList = numberList ∧
    (leftChildnums numberList).length + (rightChildnums numberList).length
      = numberList.length ∧
    ((rightChildnums numberList).length = (leftChildnums numberList).length + 1
      ↔ numberList.length % 2 = 1) ∧
    lNumsSize numberList = (leftChildnums numberList).length ∧
    rNumsSize numberList = (rightChildnums numberList).length ∧
    (numberList.length = 7 →
      (leftChildnums numberList).length = 3 ∧ (rightChildnums numberList).length = 4) := by
  have hl := leftChildnums_eq numberList
  have hr := rightChildnums_eq numberList
  have hll : (leftChildnums numberList).length = numberList.length / 2 := by
    rw [hl, List.length_take]
    omega
  have hrl : (rightChildnums numberList).length
      = numberList.length - numberList.length / 2 := by
    rw [hr, List.length_drop]
  refine ⟨hl, hr, ?_, by omega, by omega, ?_, ?_, by omega⟩
  · rw [hl, hr, List.take_append_drop]
  · rw [hll]
    rfl
  · rw [hrl, rNumsSize_eq]

theorem split_shape_witness :
    leftChildnums [5, 3, 8, 1, 9, 2, 7] = [5, 3, 8] ∧
    rightChildnums [5, 3, 8, 1, 9, 2, 7] = [1, 9, 2, 7] ∧
    lNumsSize [5, 3, 8, 1, 9, 2, 7] = 3 ∧ rNumsSize [5, 3, 8, 1, 9, 2, 7] = 4 ∧
    (leftChildnums [5, 3, 8, 1, 9, 2, 7]).length = 3 ∧
    (rightChildnums [5, 3, 8, 1, 9, 2, 7]).length = 4 :=
  ⟨by decide, by decide, by decide, by decide,
    ((split_shape [5, 3, 8, 1, 9, 2, 7]).2.2.2.2.2.2.2 (by decide)).1,
    ((split_shape [5, 3, 8, 1, 9, 2, 7]).2.2.2.2.2.2.2 (by decide)).2⟩

/-- C8. The top-level call `sortInts(numList, 1)` on a list of 2 to 5
elements takes the leaf path: it writes the sorted integers to descriptor 1
and calls `exit(0)`, so it never returns to `main`, `numList` is not
overwritten and line 85 ("Finished sorting list") is never reached; this
holds whatever the operating system does. Shown also on `[2, 1]`,
`[3, 1, 2]`, `[4, 3, 2, 1]` and `[5, 4, 3, 2, 1]`, next to `[6, 5, 4, 3, 2, 1]`
where `main` does report. -/
theorem main_short_list_never_reports :
    (∀ (os : List Bool → Sched) (S : List Int), 2 ≤ S.length → S.length ≤ 5 →
      ∃ out, sort os S = some ⟨.exited out, []⟩ ∧
        main os S = some (.notReached (.exited out)) ∧
        out.Perm S ∧ out.Sorted (· ≤ ·)) ∧
    sort idealOs [2, 1] = some ⟨.exited [1, 2], []⟩ ∧
    main idealOs [2, 1] = some (.notReached (.exited [1, 2])) ∧
    main idealOs [3, 1, 2] = some (.notReached (.exited [1, 2, 3])) ∧
    main idealOs [4, 3, 2, 1] = some (.notReached (.exited [1, 2, 3, 4])) ∧
    main idealOs [5, 4, 3, 2, 1] = some (.notReached (.exited [1, 2, 3, 4, 5])) ∧
    main idealOs [6, 5, 4, 3, 2, 1] = some (.finished [1, 2, 3, 4, 5, 6]) := by
  refine ⟨?_, by decide, by decide, by decide, by decide, by decide, by decide⟩
  intro os S h2 h5
  obtain ⟨out, _, h, hp, hs⟩ := sortInts_leaf os S.length [] S S h5
  refine ⟨out, h, ?_, hp, hs⟩
  unfold main
  rw [if_neg (by omega), if_neg (by omega)]
  unfold sort
  rw [h]
  rfl

/-- C9. Size-threshold boundary: on a sequence of at most 5 elements
`sortInts` spawns no worker and its output is `quicksort` of the whole
sequence; on a sequence of exactly 6 elements (both `fork()` calls succeeding)
the sort spawns exactly two workers in total, each given 3 elements and each
ending on the leaf path with its quicksorted part. -/
theorem threshold_boundary (os : List Bool → Sched) (S : List Int)
    (hl : (os []).leftForkOk = true) (hr : (os []).rightForkOk = true) :
    (S.length ≤ 5 → ∃ sorted, quicksort S 0 S.length = some sorted ∧
      sort os S = some ⟨.exited sorted, []⟩) ∧
    (S.length = 6 → ∃ out lo ro,
      sort os S = some ⟨out, [(S.take 3, .exited lo), (S.drop 3, .exited ro)]⟩ ∧
      (S.take 3).length = 3 ∧ (S.drop 3).length = 3 ∧
      quicksort (S.take 3) 0 3 = some lo ∧ quicksort (S.drop 3) 0 3 = some ro) := by
  constructor
  · intro h5
    obtain ⟨sorted, h1, h2, _⟩ := sortInts_leaf os S.length [] S S h5
    exact ⟨sorted, h1, h2⟩
  · intro h6
    have hlc : leftChildnums S = S.take 3 := by
      rw [leftChildnums_eq, h6]
    have hrc : rightChildnums S = S.drop 3 := by
      rw [rightChildnums_eq, h6]
    have hll : (S.take 3).length = 3 := by
      rw [List.length_take]
      omega
    have hrl : (S.drop 3).length = 3 := by
      rw [List.length_drop]
      omega
    obtain ⟨lo, hlo1, hlo2, _⟩ := sortInts_leaf os 5 [false] S (S.take 3) (by omega)
    obtain ⟨ro, hro1, hro2, _⟩ := sortInts_leaf os 5 [true] S (S.drop 3) (by omega)
    rw [hll] at hlo1
    rw [hrl] at hro1
    obtain ⟨out, hout⟩ := sortInts_split os 5 [] S S (by omega) hl hr
      ⟨.exited lo, []⟩ ⟨.exited ro, []⟩ (by rw [hlc]; exact hlo2) (by rw [hrc]; exact hro2)
      (fun x hx => by cases hx) (fun x hx => by cases hx)
    refine ⟨out, lo, ro, ?_, hll, hrl, hlo1, hro1⟩
    unfold sort
    rw [h6, hout, hlc, hrc]
    rfl

theorem threshold_boundary_witness :
    ((idealOs []).leftForkOk = true ∧ (idealOs []).rightForkOk = true) ∧
    ([6, 5, 4, 3, 2, 1].length = 6 ∧
      sort idealOs [6, 5, 4, 3, 2, 1] = some ⟨.returned [1, 2, 3, 4, 5, 6],
        [([6, 5, 4], .exited [4, 5, 6]), ([3, 2, 1], .exited [1, 2, 3])]⟩) ∧
    ([9, 7, 8, 5, 6].length ≤ 5 ∧
      sort idealOs [9, 7, 8, 5, 6] = some ⟨.exited [5, 6, 7, 8, 9], []⟩) ∧
    ∃ out lo ro,
      sort idealOs [6, 5, 4, 3, 2, 1] = some ⟨out,
        [(([6, 5, 4, 3, 2, 1] : List Int).take 3, .exited lo),
          (([6, 5, 4, 3, 2, 1] : List Int).drop 3, .exited ro)]⟩ ∧
      (([6, 5, 4, 3, 2, 1] : List Int).take 3).length = 3 ∧
      (([6, 5, 4, 3, 2, 1] : List Int).drop 3).length = 3 ∧
      quicksort (([6, 5, 4, 3, 2, 1] : List Int).take 3) 0 3 = some lo ∧
      quicksort (([6, 5, 4, 3, 2, 1] : List Int).drop 3) 0 3 = some ro :=
  ⟨⟨rfl, rfl⟩, ⟨by decide, by decide⟩, ⟨by decide, by decide⟩,
    (threshold_boundary idealOs [6, 5, 4, 3, 2, 1] rfl rfl).2 (by decide)⟩

/-- C10. When `pipe(pipefd)` fails in the top-level call on more than 5
elements, `sortInts` only prints the error and carries on: both workers are
spawned all the same. On `[6,5,4,3,2,1]` the parent then merges what its
failed reads left in `leftNums` and `rightNums` (here zeros), overwrites the
caller's buffer with it and returns, and `main` reports that list. -/
theorem pipe_failure_continues :
    (∀ (os : List Bool → Sched) (S : List Int), 5 < S.length →
      (os []).pipeOk = false → (os []).leftForkOk = true → (os []).rightForkOk = true →
      ∃ run, sort os S = some run ∧
        S.take (S.length / 2) ∈ run.workers.map Prod.fst ∧
        S.drop (S.length / 2) ∈ run.workers.map Prod.fst) ∧
    (pipeFailOs []).pipeOk = false ∧
    sort pipeFailOs [6, 5, 4, 3, 2, 1] = some ⟨.returned [0, 0, 0, 0, 0, 0],
      [([6, 5, 4], .exited [4, 5, 6]), ([3, 2, 1], .exited [1, 2, 3])]⟩ ∧
    main pipeFailOs [6, 5, 4, 3, 2, 1] = some (.finished [0, 0, 0, 0, 0, 0]) := by
  refine ⟨?_, by decide, by decide, by decide⟩
  intro os S h5 _ hl hr
  obtain ⟨n, hn⟩ : ∃ n, S.length = n + 1 := ⟨S.length - 1, by omega⟩
  have hllen : (leftChildnums S).length = S.length / 2 := by
    rw [leftChildnums_eq, List.length_take]
    omega
  have hrlen : (rightChildnums S).length = S.length - S.length / 2 := by
    rw [rightChildnums_eq, List.length_drop]
  obtain ⟨lrun, hl1, hl2⟩ :=
    sortInts_total os S n [false] (leftChildnums S) (by omega) (by omega)
  obtain ⟨rrun, hr1, hr2⟩ :=
    sortInts_total os S n [true] (rightChildnums S) (by omega) (by omega)
  obtain ⟨out, hout⟩ := sortInts_split os n [] S S h5 hl hr lrun rrun hl1 hr1
    (hl2 (by omega)) (hr2 (by omega))
  refine ⟨⟨out, ((leftChildnums S, lrun.outcome) :: lrun.workers) ++
    ((rightChildnums S, rrun.outcome) :: rrun.workers)⟩, ?_, ?_, ?_⟩
  · unfold sort
    rw [hn]
    exact hout
  · rw [← leftChildnums_eq]
    simp
  · rw [← rightChildnums_eq]
    simp

/-- C13. Quicksort touches only its range: for `0 ≤ start ≤ end ≤ v.size()`
the call `quicksort(v, start, end)` finishes, leaves the size of the vector
unchanged and every element at a position outside `[start, end)` in place;
when `start ≥ end` the vector is entirely unchanged. -/
theorem quicksort_frame (v : List Int) (startIndex endIndex : Nat)
    (hse : startIndex ≤ endIndex) (he : endIndex ≤ v.length) :
    ∃ w, quicksort v startIndex endIndex = some w ∧ w.length = v.length ∧
      (∀ k, k < startIndex ∨ endIndex ≤ k → w[k]? = v[k]?) ∧
      (∀ k, k < startIndex ∨ endIndex ≤ k → w.getD k 0 = v.getD k 0) ∧
      (endIndex ≤ startIndex → w = v) := by
  obtain ⟨w, h1, h2, h3, _, _⟩ := quicksort_spec v startIndex endIndex hse he
  refine ⟨w, h1, h2, h3, fun k hk => getD_eq_of_sameOutside w v _ _ k h3 hk, ?_⟩
  intro hes
  have h4 : quicksort v startIndex endIndex = some v := by
    unfold quicksort quicksortFuel
    rw [if_neg (by omega)]
  rw [h4] at h1
  exact (Option.some.inj h1).symm

theorem quicksort_frame_witness :
    (2 ≤ 6 ∧ 6 ≤ [5, 3, 8, 1, 9, 2, 7].length) ∧
    (∃ w, quicksort [5, 3, 8, 1, 9, 2, 7] 2 6 = some w ∧
      w.length = [5, 3, 8, 1, 9, 2, 7].length ∧
      (∀ k, k < 2 ∨ 6 ≤ k → w[k]? = ([5, 3, 8, 1, 9, 2, 7] : List Int)[k]?) ∧
      (∀ k, k < 2 ∨ 6 ≤ k → w.getD k 0 = ([5, 3, 8, 1, 9, 2, 7] : List Int).getD k 0) ∧
      (6 ≤ 2 → w = [5, 3, 8, 1, 9, 2, 7])) ∧
    quicksort [5, 3, 8, 1, 9, 2, 7] 2 6 = some [5, 3, 1, 2, 8, 9, 7] ∧
    quicksort [5, 3, 8, 1, 9, 2, 7] 4 4 = some [5, 3, 8, 1, 9, 2, 7] :=
  ⟨⟨by decide, by decide⟩,
    quicksort_frame [5, 3, 8, 1, 9, 2, 7] 2 6 (by decide) (by decide),
    by decide, by decide⟩

/-- The vectors `readBack` yields are the ones `parentPart` merges. -/
theorem parentPart_eq_readBack (sch : Sched) (numList numberList : List Int)
    (lc rc : Child) :
    parentPart sch numList numberList lc rc =
      match readBack sch numberList lc rc with
      | none => some .blocked
      | some (left, right) =>
        (merge [] left right).map fun combined =>
          if numberList.length ≠ numList.length then
            .exited ((convertVectToInt combined
              (List.replicate numberList.length 0)).take combined.length)
          else .returned (stdCopy combined numList) := by
  unfold parentPart readBack
  by_cases h1 : lc = .hung ∨ rc = .hung
  · rw [if_pos h1, if_pos h1]
  · rw [if_neg h1, if_neg h1]
    dsimp only
    generalize (if sch.leftFirst = true then lc.data ++ rc.data else rc.data ++ lc.data) = w
    by_cases h2 : sch.pipeOk = true ∧ sch.capacity < w.length
    · rw [if_pos h2, if_pos h2]
    · rw [if_neg h2, if_neg h2]
      generalize (if sch.pipeOk = true then
        readPipe w (List.map sch.junk (List.range' 0 (lNumsSize numberList)))
          (lNumsSize numberList)
        else some (List.map sch.junk (List.range' 0 (lNumsSize numberList)), [])) = r1
      cases r1 with
      | none => rfl
      | some p =>
        obtain ⟨leftNums, rest⟩ := p
        dsimp only
        generalize (if sch.pipeOk = true then
          readPipe rest
            (List.map sch.junk (List.range' (lNumsSize numberList) (rNumsSize numberList)))
            (rNumsSize numberList)
          else some (List.map sch.junk
            (List.range' (lNumsSize numberList) (rNumsSize numberList)), [])) = r2
        cases r2 with
        | none => rfl
        | some q => rfl

/-- C15. The parent reads the single pipe in the order the workers wrote to
it. When the left worker writes first, `left` and `right` are the two
workers' outputs; when the right worker writes first, they are not: for
`[5,3,8,1,9,2,7]`, with the left worker's output `[3,5,8]` and the right
worker's `[1,2,7,9]`, the parent deserialises `left = [1,2,7]` and
`right = [9,3,5,8]`. -/
theorem parent_reads_in_write_order :
    (rightFirstOs []).leftFirst = false ∧
    leftChildnums [5, 3, 8, 1, 9, 2, 7] = [5, 3, 8] ∧
    rightChildnums [5, 3, 8, 1, 9, 2, 7] = [1, 9, 2, 7] ∧
    sort rightFirstOs [5, 3, 8, 1, 9, 2, 7] = some ⟨.returned [1, 2, 3, 5, 7, 8, 9],
      [([5, 3, 8], .exited [3, 5, 8]), ([1, 9, 2, 7], .exited [1, 2, 7, 9])]⟩ ∧
    readBack (rightFirstOs []) [5, 3, 8, 1, 9, 2, 7] (.wrote [3, 5, 8]) (.wrote [1, 2, 7, 9])
      = some ([1, 2, 7], [9, 3, 5, 8]) ∧
    readBack (idealOs []) [5, 3, 8, 1, 9, 2, 7] (.wrote [3, 5, 8]) (.wrote [1, 2, 7, 9])
      = some ([3, 5, 8], [1, 2, 7, 9]) ∧
    (∀ (sch : Sched) (numList numberList : List Int) (lc rc : Child),
      parentPart sch numList numberList lc rc =
        match readBack sch numberList lc rc with
        | none => some .blocked
        | some (left, right) =>
          (merge [] left right).map fun combined =>
            if numberList.length ≠ numList.length then
              .exited ((convertVectToInt combined
                (List.replicate numberList.length 0)).take combined.length)
            else .returned (stdCopy combined numList)) := by
  refine ⟨by decide, by decide, by decide, by decide, by decide, by decide, ?_⟩
  exact parentPart_eq_readBack

/-- C16. The merged result does not depend on the order of the two writes:
for all sequences `a` and `b` (the two workers' outputs, sorted or not),
cutting `a ++ b` into its first `|a|` and last `|b|` elements and merging
them gives the same sequence as cutting `b ++ a` the same way and merging,
namely the sorted permutation of `a ++ b`. -/
theorem merge_order_independent (a b : List Int) :
    ∃ m, merge [] ((a ++ b).take a.length) ((a ++ b).drop a.length) = some m ∧
      merge [] ((b ++ a).take a.length) ((b ++ a).drop a.length) = some m ∧
      ((a ++ b).drop a.length).length = b.length ∧
      ((b ++ a).drop a.length).length = b.length ∧
      m.Sorted (· ≤ ·) ∧ m.Perm (a ++ b) ∧ m = (a ++ b).insertionSort (· ≤ ·) := by
  obtain ⟨m, h1, h2, h3⟩ := merge_spec [] ((a ++ b).take a.length) ((a ++ b).drop a.length)
  obtain ⟨m2, k1, k2, k3⟩ := merge_spec [] ((b ++ a).take a.length) ((b ++ a).drop a.length)
  rw [List.nil_append] at h1 k1
  rw [List.take_append_drop] at h2 k2
  have heq : m2 = m :=
    List.eq_of_perm_of_sorted (k2.trans (List.perm_append_comm.trans h2.symm)) k3 h3
  rw [heq] at k1
  refine ⟨m, h1, k1, ?_, ?_, h3, h2, ?_⟩
  · simp
  · simp only [List.length_drop, List.length_append]
    omega
  · exact List.eq_of_perm_of_sorted
      (h2.trans (List.perm_insertionSort (· ≤ ·) (a ++ b)).symm) h3
      (List.sorted_insertionSort (· ≤ ·) (a ++ b))

theorem merge_order_independent_witness :
    (([3, 5, 8] : List Int).Sorted (· ≤ ·) ∧ ([1, 2, 7, 9] : List Int).Sorted (· ≤ ·)) ∧
    (∃ m, merge [] (([3, 5, 8] ++ [1, 2, 7, 9] : List Int).take ([3, 5, 8] : List Int).length)
          (([3, 5, 8] ++ [1, 2, 7, 9] : List Int).drop ([3, 5, 8] : List Int).length) = some m ∧
      merge [] (([1, 2, 7, 9] ++ [3, 5, 8] : List Int).take ([3, 5, 8] : List Int).length)
          (([1, 2, 7, 9] ++ [3, 5, 8] : List Int).drop ([3, 5, 8] : List Int).length) = some m ∧
      (([3, 5, 8] ++ [1, 2, 7, 9] : List Int).drop ([3, 5, 8] : List Int).length).length
        = ([1, 2, 7, 9] : List Int).length ∧
      (([1, 2, 7, 9] ++ [3, 5, 8] : List Int).drop ([3, 5, 8] : List Int).length).length
        = ([1, 2, 7, 9] : List Int).length ∧
      m.Sorted (· ≤ ·) ∧ m.Perm ([3, 5, 8] ++ [1, 2, 7, 9]) ∧
      m = ([3, 5, 8] ++ [1, 2, 7, 9] : List Int).insertionSort (· ≤ ·)) ∧
    merge [] [3, 5, 8] [1, 2, 7, 9] = some [1, 2, 3, 5, 7, 8, 9] ∧
    merge [] [1, 2, 7] [9, 3, 5, 8] = some [1, 2, 3, 5, 7, 8, 9] :=
  ⟨⟨by decide, by decide⟩,
    merge_order_independent [3, 5, 8] [1, 2, 7, 9], by decide, by decide⟩

theorem spawn_workers (ok : Bool) (childnums : List Int) (run : Run)
    (h : ∀ x, run.outcome ≠ .returned x) :
    ∃ c, spawn ok childnums (some run) =
      some (c, if ok = true then (childnums, run.outcome) :: run.workers else []) := by
  obtain ⟨o, ws⟩ := run
  cases ok with
  | false => exact ⟨_, rfl⟩
  | true =>
    cases o with
    | returned x => exact absurd rfl (h x)
    | exited w => exact ⟨_, rfl⟩
    | blocked => exact ⟨_, rfl⟩

/-- One level of the recursive case, whatever the operating system does: the
run lists each worker whose `fork()` succeeded, followed by what it spawned. -/
theorem sortInts_unfold (os : List Bool → Sched) (fuel : Nat) (path : List Bool)
    (numList numberList : List Int) (h5 : 5 < numberList.length) (lrun rrun : Run)
    (hlr : sortInts os fuel (false :: path) numList (leftChildnums numberList) = some lrun)
    (hrr : sortInts os fuel (true :: path) numList (rightChildnums numberList) = some rrun)
    (hlo : ∀ x, lrun.outcome ≠ .returned x) (hro : ∀ x, rrun.outcome ≠ .returned x) :
    ∃ out, sortInts os (fuel + 1) path numList numberList =
      some ⟨out,
        (if (os path).leftForkOk = true
          then (leftChildnums numberList, lrun.outcome) :: lrun.workers else []) ++
        (if (os path).rightForkOk = true
          then (rightChildnums numberList, rrun.outcome) :: rrun.workers else [])⟩ := by
  obtain ⟨lc, hl⟩ := spawn_workers (os path).leftForkOk (leftChildnums numberList) lrun hlo
  obtain ⟨rc, hr⟩ := spawn_workers (os path).rightForkOk (rightChildnums numberList) rrun hro
  obtain ⟨out, hout⟩ := parentPart_total (os path) numList numberList lc rc
  refine ⟨out, ?_⟩
  unfold sortInts
  rw [if_neg (by omega)]
  dsimp only
  rw [hlr, hrr, hl, hr]
  simp only [Option.some_bind, hout, Option.map_some']

/-- C11. When a `fork()` of the top-level call fails, nothing aborts the
sort: the return value -1 is never tested, and for every input of more than
5 elements the other worker is spawned all the same. With the left `fork()`
failing on `[5,3,8,1,9,2,7]` the parent waits, reads the right worker's four
integers as three for `leftNums` and one for `rightNums` (the rest stays
uninitialised, here zeros), merges, overwrites the caller's buffer and
returns, and `main` reports `[0,0,0,1,2,7,9]`. With the right `fork()`
failing, or with an even length, the parent blocks for ever in its second
`read`. -/
theorem fork_failure_continues :
    (∀ (os : List Bool → Sched) (S : List Int), 5 < S.length →
      (os []).leftForkOk = false → (os []).rightForkOk = true →
      ∃ run, sort os S = some run ∧ S.drop (S.length / 2) ∈ run.workers.map Prod.fst) ∧
    (∀ (os : List Bool → Sched) (S : List Int), 5 < S.length →
      (os []).leftForkOk = true → (os []).rightForkOk = false →
      ∃ run, sort os S = some run ∧ S.take (S.length / 2) ∈ run.workers.map Prod.fst) ∧
    (leftForkFailOs []).leftForkOk = false ∧
    sort leftForkFailOs [5, 3, 8, 1, 9, 2, 7] = some ⟨.returned [0, 0, 0, 1, 2, 7, 9],
      [([1, 9, 2, 7], .exited [1, 2, 7, 9])]⟩ ∧
    main leftForkFailOs [5, 3, 8, 1, 9, 2, 7] = some (.finished [0, 0, 0, 1, 2, 7, 9]) ∧
    sort leftForkFailOs [6, 5, 4, 3, 2, 1] = some ⟨.blocked,
      [([3, 2, 1], .exited [1, 2, 3])]⟩ ∧
    (rightForkFailOs []).rightForkOk = false ∧
    sort rightForkFailOs [5, 3, 8, 1, 9, 2, 7] = some ⟨.blocked,
      [([5, 3, 8], .exited [3, 5, 8])]⟩ := by
  have key : ∀ (os : List Bool → Sched) (S : List Int), 5 < S.length →
      ∃ (out : Outcome) (lrun rrun : Run), sort os S = some ⟨out,
        (if (os []).leftForkOk = true
          then (leftChildnums S, lrun.outcome) :: lrun.workers else []) ++
        (if (os []).rightForkOk = true
          then (rightChildnums S, rrun.outcome) :: rrun.workers else [])⟩ := by
    intro os S h5
    obtain ⟨n, hn⟩ : ∃ n, S.length = n + 1 := ⟨S.length - 1, by omega⟩
    have hllen : (leftChildnums S).length = S.length / 2 := by
      rw [leftChildnums_eq, List.length_take]
      omega
    have hrlen : (rightChildnums S).length = S.length - S.length / 2 := by
      rw [rightChildnums_eq, List.length_drop]
    obtain ⟨lrun, hl1, hl2⟩ :=
      sortInts_total os S n [false] (leftChildnums S) (by omega) (by omega)
    obtain ⟨rrun, hr1, hr2⟩ :=
      sortInts_total os S n [true] (rightChildnums S) (by omega) (by omega)
    obtain ⟨out, hout⟩ := sortInts_unfold os n [] S S h5 lrun rrun hl1 hr1
      (hl2 (by omega)) (hr2 (by omega))
    refine ⟨out, lrun, rrun, ?_⟩
    unfold sort
    rw [hn]
    exact hout
  refine ⟨?_, ?_, by decide, by decide, by decide, by decide, by decide, by decide⟩
  · intro os S h5 hl hr
    obtain ⟨out, lrun, rrun, h⟩ := key os S h5
    refine ⟨_, h, ?_⟩
    rw [hl, hr, ← rightChildnums_eq]
    simp
  · intro os S h5 hl hr
    obtain ⟨out, lrun, rrun, h⟩ := key os S h5
    refine ⟨_, h, ?_⟩
    rw [hl, hr, ← leftChildnums_eq]
    simp

theorem quicksortFuel_succ : ∀ (fuel : Nat) (v : List Int) (s e : Nat) (w : List Int),
    quicksortFuel fuel v s e = some w → quicksortFuel (fuel + 1) v s e = some w := by
  intro fuel
  induction fuel with
  | zero =>
    intro v s e w h
    unfold quicksortFuel at h
    by_cases hlt : s < e
    · rw [if_pos hlt] at h
      cases h
    · rw [if_neg hlt] at h
      unfold quicksortFuel
      rw [if_neg hlt]
      exact h
  | succ fuel ih =>
    intro v s e w h
    by_cases hlt : s < e
    · unfold quicksortFuel at h
      rw [if_pos hlt] at h
      dsimp only at h
      obtain ⟨v1, h1, h2⟩ := Option.bind_eq_some.mp h
      unfold quicksortFuel
      rw [if_pos hlt]
      dsimp only
      rw [ih _ _ _ _ h1, Option.some_bind]
      exact ih _ _ _ _ h2
    · unfold quicksortFuel at h
      rw [if_neg hlt] at h
      unfold quicksortFuel
      rw [if_neg hlt]
      exact h

theorem quicksortFuel_mono (fuel extra : Nat) (v : List Int) (s e : Nat) (w : List Int)
    (h : quicksortFuel fuel v s e = some w) : quicksortFuel (fuel + extra) v s e = some w := by
  induction extra with
  | zero => exact h
  | succ n ih => exact quicksortFuel_succ _ _ _ _ _ ih

/-- C18. Quicksort terminates: for `0 ≤ start ≤ end ≤ v.size()` the call
`quicksort(v, start, end)` yields a result, the same for every bound on the
recursion depth of at least `end - start`; and whenever `start < end` the
index `k` returned by `partition` satisfies `start ≤ k < end`, so both
recursive ranges `[start, k)` and `[k+1, end)` are strictly shorter than
`[start, end)`. -/
theorem quicksort_terminates (v : List Int) (startIndex endIndex : Nat)
    (hse : startIndex ≤ endIndex) (he : endIndex ≤ v.length) :
    ∃ w, quicksort v startIndex endIndex = some w ∧
      (∀ fuel, endIndex - startIndex ≤ fuel →
        quicksortFuel fuel v startIndex endIndex = some w) ∧
      (startIndex < endIndex →
        startIndex ≤ (partition v startIndex endIndex).2 ∧
        (partition v startIndex endIndex).2 < endIndex ∧
        (partition v startIndex endIndex).2 - startIndex < endIndex - startIndex ∧
        endIndex - ((partition v startIndex endIndex).2 + 1) < endIndex - startIndex) := by
  obtain ⟨w, h1, _⟩ := quicksort_spec v startIndex endIndex hse he
  refine ⟨w, h1, ?_, ?_⟩
  · intro fuel hf
    have := quicksortFuel_mono (endIndex - startIndex) (fuel - (endIndex - startIndex))
      v startIndex endIndex w h1
    rw [Nat.add_sub_cancel' hf] at this
    exact this
  · intro hlt
    obtain ⟨_, h2, h3, _⟩ := partition_spec v startIndex endIndex hlt he
    exact ⟨h2, h3, by omega, by omega⟩

theorem quicksort_terminates_witness :
    (0 ≤ 7 ∧ 7 ≤ [5, 3, 8, 1, 9, 2, 7].length) ∧
    (∃ w, quicksort [5, 3, 8, 1, 9, 2, 7] 0 7 = some w ∧
      (∀ fuel, 7 - 0 ≤ fuel → quicksortFuel fuel [5, 3, 8, 1, 9, 2, 7] 0 7 = some w) ∧
      (0 < 7 →
        0 ≤ (partition [5, 3, 8, 1, 9, 2, 7] 0 7).2 ∧
        (partition [5, 3, 8, 1, 9, 2, 7] 0 7).2 < 7 ∧
        (partition [5, 3, 8, 1, 9, 2, 7] 0 7).2 - 0 < 7 - 0 ∧
        7 - ((partition [5, 3, 8, 1, 9, 2, 7] 0 7).2 + 1) < 7 - 0)) ∧
    quicksort [5, 3, 8, 1, 9, 2, 7] 0 7 = some [1, 2, 3, 5, 7, 8, 9] ∧
    partition [5, 3, 8, 1, 9, 2, 7] 0 7 = ([5, 3, 1, 2, 7, 8, 9], 4) ∧
    quicksort [1, 2, 3, 4, 5, 6] 0 6 = some [1, 2, 3, 4, 5, 6] ∧
    quicksortFuel 5 [1, 2, 3, 4, 5, 6] 0 6 = none :=
  ⟨⟨by decide, by decide⟩,
    quicksort_terminates [5, 3, 8, 1, 9, 2, 7] 0 7 (by decide) (by decide),
    by decide, by decide, by decide, by decide⟩

theorem partitionFoldLog (p : Int) (s e : Nat) :
    ∀ (n j : Nat) (st : List Int × Nat) (lg : List Nat), s ≤ st.2 → st.2 ≤ j →
      j + n ≤ e → (∀ k ∈ lg, s ≤ k ∧ k < e) →
      ((List.range' j n).foldl (partitionStepLog p) (st, lg)).1 =
        (List.range' j n).foldl (partitionStep p) st ∧
      ∀ k ∈ ((List.range' j n).foldl (partitionStepLog p) (st, lg)).2, s ≤ k ∧ k < e := by
  intro n
  induction n with
  | zero =>
    intro j st lg _ _ _ hlg
    exact ⟨rfl, hlg⟩
  | succ n ih =>
    intro j st lg h1 h2 h3 hlg
    rw [List.range'_succ, List.foldl_cons, List.foldl_cons]
    by_cases hc : st.1.getD j 0 ≤ p
    · have e1 : partitionStepLog p (st, lg) j =
          ((iter_swap st.1 st.2 j, st.2 + 1), lg ++ [j, st.2, j]) := by
        unfold partitionStepLog
        exact if_pos hc
      have e2 : partitionStep p st j = (iter_swap st.1 st.2 j, st.2 + 1) := by
        unfold partitionStep
        exact if_pos hc
      rw [e1, e2]
      apply ih (j + 1) _ _ (by dsimp only; omega) (by dsimp only; omega) (by omega)
      intro k hk
      rcases List.mem_append.mp hk with h | h
      · exact hlg k h
      · simp only [List.mem_cons, List.mem_singleton, List.not_mem_nil, or_false] at h
        omega
    · have e1 : partitionStepLog p (st, lg) j = (st, lg ++ [j]) := by
        unfold partitionStepLog
        exact if_neg hc
      have e2 : partitionStep p st j = st := by
        unfold partitionStep
        exact if_neg hc
      rw [e1, e2]
      apply ih (j + 1) _ _ h1 (by omega) (by omega)
      intro k hk
      rcases List.mem_append.mp hk with h | h
      · exact hlg k h
      · simp only [List.mem_singleton] at h
        omega

/-- The recording `partition` computes what `partition` computes, and on a
non-empty range touches only positions of the range. -/
theorem partitionLog_spec (v : List Int) (s e : Nat) (hse : s < e) :
    (partitionLog v s e).1 = partition v s e ∧
    ∀ k ∈ (partitionLog v s e).2, s ≤ k ∧ k < e := by
  have h := partitionFoldLog (v.getD (e - 1) 0) s e (e - s) s (v, s) [e - 1]
    (Nat.le_refl _) (Nat.le_refl _) (by omega)
    (fun k hk => by
      simp only [List.mem_singleton] at hk
      omega)
  unfold partitionLog partition
  dsimp only
  exact ⟨by rw [h.1], h.2⟩

theorem quicksortLogFuel_spec : ∀ (fuel : Nat) (v : List Int) (s e : Nat), s ≤ e →
    e ≤ v.length → e - s ≤ fuel →
    ∃ w lg, quicksortLogFuel fuel v s e = some (w, lg) ∧
      quicksortFuel fuel v s e = some w ∧ ∀ k ∈ lg, s ≤ k ∧ k < e := by
  intro fuel
  induction fuel with
  | zero =>
    intro v s e hse he hf
    refine ⟨v, [], ?_, ?_, fun k hk => by cases hk⟩
    · unfold quicksortLogFuel
      rw [if_neg (by omega)]
    · unfold quicksortFuel
      rw [if_neg (by omega)]
  | succ fuel ih =>
    intro v s e hse he hf
    by_cases hlt : s < e
    · obtain ⟨hlen1, hk1, hk2, _⟩ := partition_spec v s e hlt he
      obtain ⟨hp1, hp2⟩ := partitionLog_spec v s e hlt
      generalize hpl : partitionLog v s e = pl at hp1 hp2
      obtain ⟨⟨v1, k⟩, lg0⟩ := pl
      dsimp only at hp1 hp2
      rw [← hp1] at hlen1 hk1 hk2
      dsimp only at hlen1 hk1 hk2
      obtain ⟨v2, lg1, ha1, ha2, ha3⟩ := ih v1 s k hk1 (by omega) (by omega)
      obtain ⟨_, hb1, hb2, _⟩ := quicksortFuel_spec fuel v1 s k hk1 (by omega) (by omega)
      rw [ha2] at hb1
      have hlen2 : v2.length = v1.length := by
        rw [Option.some.inj hb1]
        exact hb2
      obtain ⟨v3, lg2, hc1, hc2, hc3⟩ := ih v2 (k + 1) e (by omega) (by omega) (by omega)
      refine ⟨v3, lg0 ++ lg1 ++ lg2, ?_, ?_, ?_⟩
      · unfold quicksortLogFuel
        rw [if_pos hlt]
        dsimp only
        rw [hpl]
        dsimp only
        rw [ha1, Option.some_bind, hc1]
        rfl
      · unfold quicksortFuel
        rw [if_pos hlt]
        dsimp only
        rw [← hp1]
        dsimp only
        rw [ha2, Option.some_bind, hc2]
      · intro x hx
        rcases List.mem_append.mp hx with h | h
        · rcases List.mem_append.mp h with h | h
          · exact hp2 x h
          · have := ha3 x h
            omega
        · have := hc3 x h
          omega
    · refine ⟨v, [], ?_, ?_, fun k hk => by cases hk⟩
      · unfold quicksortLogFuel
        rw [if_neg hlt]
      · unfold quicksortFuel
        rw [if_neg hlt]

/-- C19. Quicksort never indexes out of bounds: for
`0 ≤ start ≤ end ≤ v.size()`, every position read or swapped by
`quicksort(v, start, end)` and by the `partition` calls it makes (the pivot
read at `end-1` and the swap positions `i` and `j` included) lies inside
`[start, end)`, hence inside the vector. -/
theorem quicksort_in_bounds (v : List Int) (startIndex endIndex : Nat)
    (hse : startIndex ≤ endIndex) (he : endIndex ≤ v.length) :
    ∃ w touched, quicksortLog v startIndex endIndex = some (w, touched) ∧
      quicksort v startIndex endIndex = some w ∧
      (∀ k ∈ touched, startIndex ≤ k ∧ k < endIndex ∧ k < v.length) ∧
      (startIndex < endIndex →
        (partitionLog v startIndex endIndex).1 = partition v startIndex endIndex ∧
        endIndex - 1 ∈ (partitionLog v startIndex endIndex).2 ∧
        ∀ k ∈ (partitionLog v startIndex endIndex).2,
          startIndex ≤ k ∧ k < endIndex ∧ k < v.length) := by
  obtain ⟨w, lg, h1, h2, h3⟩ :=
    quicksortLogFuel_spec (endIndex - startIndex) v startIndex endIndex hse he (Nat.le_refl _)
  refine ⟨w, lg, h1, h2, ?_, ?_⟩
  · intro k hk
    have := h3 k hk
    omega
  · intro hlt
    obtain ⟨hp1, hp2⟩ := partitionLog_spec v startIndex endIndex hlt
    refine ⟨hp1, ?_, ?_⟩
    · have hgen : ∀ (l : List Nat) (st : (List Int × Nat) × List Nat) (x : Nat), x ∈ st.2 →
          x ∈ (l.foldl (partitionStepLog (v.getD (endIndex - 1) 0)) st).2 := by
        intro l
        induction l with
        | nil => exact fun _ _ hx => hx
        | cons j l ih =>
          intro st x hx
          rw [List.foldl_cons]
          apply ih
          unfold partitionStepLog
          split
          · exact List.mem_append_left _ hx
          · exact List.mem_append_left _ hx
      unfold partitionLog
      dsimp only
      exact hgen _ _ _ (List.mem_singleton.mpr rfl)
    · intro k hk
      have := hp2 k hk
      omega

theorem quicksort_in_bounds_witness :
    (0 ≤ 3 ∧ 3 ≤ [3, 1, 2].length) ∧
    (∃ w touched, quicksortLog [3, 1, 2] 0 3 = some (w, touched) ∧
      quicksort [3, 1, 2] 0 3 = some w ∧
      (∀ k ∈ touched, 0 ≤ k ∧ k < 3 ∧ k < [3, 1, 2].length) ∧
      (0 < 3 →
        (partitionLog [3, 1, 2] 0 3).1 = partition [3, 1, 2] 0 3 ∧
        3 - 1 ∈ (partitionLog [3, 1, 2] 0 3).2 ∧
        ∀ k ∈ (partitionLog [3, 1, 2] 0 3).2, 0 ≤ k ∧ k < 3 ∧ k < [3, 1, 2].length)) ∧
    partitionLog [3, 1, 2] 0 3 = (([1, 2, 3], 1), [2, 0, 1, 0, 1, 2, 1, 2]) ∧
    quicksortLog [5, 3, 8, 1, 9, 2, 7] 2 5 =
      some ([5, 3, 1, 8, 9, 2, 7],
        [4, 2, 2, 2, 3, 3, 3, 4, 4, 4, 3, 2, 3, 2, 3, 3, 3, 3, 3]) :=
  ⟨⟨by decide, by decide⟩, quicksort_in_bounds [3, 1, 2] 0 3 (by decide) (by decide),
    by decide, by decide⟩

/-! ## Parsing -/

theorem digitChar_spec : ∀ d, d < 10 →
    isdigit (Nat.digitChar d) = true ∧ (Nat.digitChar d).toNat - 48 = d := by
  decide

theorem isspace_of_isdigit (c : Char) (h : isdigit c = true) : isspace c = false := by
  unfold isdigit at h
  unfold isspace
  simp only [Bool.and_eq_true, decide_eq_true_eq] at h
  simp only [Bool.or_eq_false_iff, Bool.and_eq_false_iff, decide_eq_false_iff_not]
  omega

theorem not_sign_of_isdigit (c : Char) (h : isdigit c = true) : c ≠ '-' ∧ c ≠ '+' := by
  constructor
  · rintro rfl
    revert h
    decide
  · rintro rfl
    revert h
    decide

theorem digitsValue_append_singleton (ds : List Char) (c : Char) :
    digitsValue (ds ++ [c]) = 10 * digitsValue ds + (c.toNat - 48) := by
  unfold digitsValue
  rw [List.foldl_append]
  rfl

theorem toDigitsCore_spec : ∀ (fuel n : Nat) (acc : List Char), n < fuel →
    ∃ ds, Nat.toDigitsCore 10 fuel n acc = ds ++ acc ∧ ds ≠ [] ∧
      (∀ c ∈ ds, isdigit c = true) ∧ digitsValue ds = n := by
  intro fuel
  induction fuel with
  | zero =>
    intro n acc h
    omega
  | succ fuel ih =>
    intro n acc h
    have hd := digitChar_spec (n % 10) (Nat.mod_lt _ (by decide))
    by_cases h0 : n / 10 = 0
    · refine ⟨[Nat.digitChar (n % 10)], ?_, by simp, ?_, ?_⟩
      · simp only [Nat.toDigitsCore, h0, if_true, List.singleton_append]
      · intro c hc
        rw [List.mem_singleton.mp hc]
        exact hd.1
      · have : digitsValue [Nat.digitChar (n % 10)] = (Nat.digitChar (n % 10)).toNat - 48 := by
          simp [digitsValue]
        rw [this, hd.2]
        omega
    · obtain ⟨ds, h1, _, h3, h4⟩ := ih (n / 10) (Nat.digitChar (n % 10) :: acc) (by omega)
      refine ⟨ds ++ [Nat.digitChar (n % 10)], ?_, by simp, ?_, ?_⟩
      · simp only [Nat.toDigitsCore, h0, if_false, h1, List.append_assoc,
          List.singleton_append]
      · intro c hc
        rcases List.mem_append.mp hc with hc | hc
        · exact h3 c hc
        · rw [List.mem_singleton.mp hc]
          exact hd.1
      · rw [digitsValue_append_singleton, h4, hd.2]
        omega

theorem toDigits_spec (n : Nat) :
    Nat.toDigits 10 n ≠ [] ∧ (∀ c ∈ Nat.toDigits 10 n, isdigit c = true) ∧
    digitsValue (Nat.toDigits 10 n) = n := by
  obtain ⟨ds, h1, h2, h3, h4⟩ := toDigitsCore_spec (n + 1) n [] (by omega)
  rw [List.append_nil] at h1
  unfold Nat.toDigits
  rw [h1]
  exact ⟨h2, h3, h4⟩

theorem takeWhile_all (ds : List Char) (h : ∀ c ∈ ds, isdigit c = true) :
    ds.takeWhile isdigit = ds := by
  induction ds with
  | nil => rfl
  | cons c r ih =>
    rw [List.takeWhile_cons, if_pos (h c (List.mem_cons_self _ _)),
      ih (fun x hx => h x (List.mem_cons_of_mem _ hx))]

theorem stoi_cons (c : Char) (r : List Char) (hc : isspace c = false) :
    stoi (c :: r) =
      if (if c = '-' ∨ c = '+' then r else c :: r).takeWhile isdigit = [] then none
      else if -2147483648 ≤
            (if c = '-' then
              -(digitsValue ((if c = '-' ∨ c = '+' then r else c :: r).takeWhile isdigit) : Int)
             else
              (digitsValue ((if c = '-' ∨ c = '+' then r else c :: r).takeWhile isdigit) : Int))
          ∧ (if c = '-' then
              -(digitsValue ((if c = '-' ∨ c = '+' then r else c :: r).takeWhile isdigit) : Int)
             else
              (digitsValue ((if c = '-' ∨ c = '+' then r else c :: r).takeWhile isdigit) : Int))
            ≤ 2147483647
        then some (if c = '-' then
              -(digitsValue ((if c = '-' ∨ c = '+' then r else c :: r).takeWhile isdigit) : Int)
             else
              (digitsValue ((if c = '-' ∨ c = '+' then r else c :: r).takeWhile isdigit) : Int))
        else none := by
  unfold stoi
  rw [List.dropWhile_cons_of_neg (by rw [hc]; decide)]

/-- The decimal writing of an integer is not empty and consists of digits and
`-`; `stoi` reads a 32-bit integer back from it. -/
theorem decimal_spec (x : Int) :
    decimal x ≠ [] ∧ (∀ c ∈ decimal x, isdigit c = true ∨ c = '-') ∧
    (-2147483648 ≤ x → x ≤ 2147483647 → stoi (decimal x) = some x) := by
  by_cases hx : x < 0
  · have hd : decimal x = '-' :: Nat.toDigits 10 x.natAbs := by
      unfold decimal
      exact if_pos hx
    obtain ⟨h1, h2, h3⟩ := toDigits_spec x.natAbs
    rw [hd]
    refine ⟨by simp, ?_, ?_⟩
    · intro c hc
      rcases List.mem_cons.mp hc with h | h
      · exact Or.inr h
      · exact Or.inl (h2 c h)
    · intro hlo hhi
      rw [stoi_cons '-' _ (by decide)]
      simp only [true_or, if_true, takeWhile_all _ h2, h3]
      rw [if_neg h1]
      have : -((x.natAbs : Nat) : Int) = x := by omega
      rw [this, if_pos ⟨hlo, hhi⟩]
  · have hd : decimal x = Nat.toDigits 10 x.toNat := by
      unfold decimal
      exact if_neg hx
    obtain ⟨h1, h2, h3⟩ := toDigits_spec x.toNat
    rw [hd]
    refine ⟨h1, fun c hc => Or.inl (h2 c hc), ?_⟩
    intro hlo hhi
    obtain ⟨c, r, hcr⟩ := List.exists_cons_of_ne_nil h1
    have hc : isdigit c = true := h2 c (by rw [hcr]; exact List.mem_cons_self _ _)
    have hs := not_sign_of_isdigit c hc
    rw [hcr, stoi_cons c r (isspace_of_isdigit c hc)]
    have hor : ¬ (c = '-' ∨ c = '+') := fun h => h.elim hs.1 hs.2
    rw [if_neg hor, if_neg hs.1, ← hcr] at *
    simp only [takeWhile_all _ h2, h3]
    rw [if_neg h1]
    have : ((x.toNat : Nat) : Int) = x := by omega
    rw [this, if_pos ⟨hlo, hhi⟩]

theorem firstIn_token (delimiter : List Char) (tok rest : List Char)
    (h : ∀ c ∈ tok, c ∉ delimiter) :
    firstIn delimiter (tok ++ rest) = (firstIn delimiter rest).map (· + tok.length) := by
  induction tok with
  | nil =>
    cases hf : firstIn delimiter rest <;> simp [hf]
  | cons c r ih =>
    have hc : c ∉ delimiter := h c (List.mem_cons_self _ _)
    have hr := ih (fun x hx => h x (List.mem_cons_of_mem _ hx))
    rw [List.cons_append, firstIn, if_neg hc, hr, Option.map_map]
    cases firstIn delimiter rest with
    | none => rfl
    | some k =>
      simp only [Option.map_some', Function.comp, List.length_cons]
      congr 1

theorem find_first_of_at (str pre suf delimiter : List Char) (h : str = pre ++ suf) :
    find_first_of str delimiter pre.length
      = (firstIn delimiter suf).map (· + pre.length) := by
  unfold find_first_of
  rw [h, List.drop_left]

theorem parseLoop_none (str delimiter : List Char) (fuel : Nat) (acc : List Int)
    (start : Nat) :
    parseLoop str delimiter fuel acc start none = some (some (acc, start, none)) := by
  rw [parseLoop]

theorem parseLoop_step (str delimiter : List Char) (fuel : Nat) (acc : List Int)
    (start e : Nat) (he : e < str.length) :
    parseLoop str delimiter (fuel + 1) acc start (some e) =
      match (if start ≠ e
          then (stoi (substr str start (some (e - start)))).map fun x => acc ++ [x]
          else some acc) with
      | none => some none
      | some acc1 =>
        parseLoop str delimiter fuel acc1 (e + 1) (find_first_of str delimiter (e + 1)) := by
  rw [parseLoop]
  rw [if_pos he]

/-- Delimiters in front of the next token are skipped one per iteration. -/
theorem parseLoop_skip (delimiter : List Char) :
    ∀ (ds pre suf str : List Char) (fuel : Nat) (acc : List Int),
      (∀ c ∈ ds, c ∈ delimiter) → str = pre ++ (ds ++ suf) →
      parseLoop str delimiter (fuel + ds.length) acc pre.length
          (find_first_of str delimiter pre.length) =
        parseLoop str delimiter fuel acc (pre.length + ds.length)
          (find_first_of str delimiter (pre.length + ds.length)) := by
  intro ds
  induction ds with
  | nil =>
    intro pre suf str fuel acc _ _
    rfl
  | cons d ds ih =>
    intro pre suf str fuel acc hds hstr
    have hd : d ∈ delimiter := hds d (List.mem_cons_self _ _)
    have hfind : find_first_of str delimiter pre.length = some pre.length := by
      rw [find_first_of_at str pre _ delimiter hstr, List.cons_append, firstIn, if_pos hd]
      simp
    have hlen : pre.length < str.length := by
      rw [hstr]
      simp
    have hstr2 : str = (pre ++ [d]) ++ (ds ++ suf) := by
      rw [hstr]
      simp
    have h2 := ih (pre ++ [d]) suf str fuel acc
      (fun c hc => hds c (List.mem_cons_of_mem _ hc)) hstr2
    rw [List.length_append, List.length_singleton] at h2
    rw [hfind, List.length_cons, ← Nat.add_assoc, parseLoop_step _ _ _ _ _ _ hlen]
    rw [if_neg (by simp)]
    dsimp only
    rw [h2]
    have e1 : pre.length + 1 + ds.length = pre.length + (ds.length + 1) := by omega
    rw [e1]

/-- The loop and the last statement of `parseInts`, started at the beginning
of a written list, append exactly that list. -/
theorem parse_written (delimiter : List Char)
    (hd : ∀ c ∈ delimiter, isdigit c = false ∧ c ≠ '-' ∧ c ≠ '+') :
    ∀ (L : List Int) (s : List Char), Written delimiter L s →
      (∀ x ∈ L, -2147483648 ≤ x ∧ x ≤ 2147483647) →
      ∀ (pre str : List Char) (fuel : Nat) (acc : List Int), str = pre ++ s →
        s.length + 1 ≤ fuel →
        (parseLoop str delimiter fuel acc pre.length
          (find_first_of str delimiter pre.length)).map (fun r => r.bind (parseTail str))
          = some (some (acc ++ L)) := by
  have htok : ∀ x : Int, ∀ c ∈ decimal x, c ∉ delimiter := by
    intro x c hc hcd
    obtain ⟨h1, h2, _⟩ := hd c hcd
    rcases (decimal_spec x).2.1 c hc with h | h
    · rw [h] at h1
      cases h1
    · exact h2 h
  intro L s hw
  induction hw with
  | nil =>
    intro _ pre str fuel acc hstr _
    rw [find_first_of_at str pre [] delimiter hstr]
    simp only [firstIn, Option.map_none', parseLoop_none, Option.map_some', Option.some_bind]
    unfold parseTail
    rw [if_neg (by rw [hstr]; simp)]
    simp
  | one x =>
    intro hL pre str fuel acc hstr _
    have hx := hL x (List.mem_singleton.mpr rfl)
    obtain ⟨hne, _, hstoi⟩ := decimal_spec x
    have hfind : find_first_of str delimiter pre.length = none := by
      rw [find_first_of_at str pre _ delimiter hstr]
      have := firstIn_token delimiter (decimal x) [] (htok x)
      rw [List.append_nil] at this
      rw [this]
      rfl
    rw [hfind, parseLoop_none]
    simp only [Option.map_some', Option.some_bind]
    unfold parseTail
    have hlen : pre.length < str.length := by
      rw [hstr, List.length_append]
      have := List.length_pos.mpr hne
      omega
    rw [if_pos hlen]
    dsimp only
    have hsub : substr str pre.length none = decimal x := by
      unfold substr
      rw [hstr, List.drop_left]
    rw [hsub, hstoi hx.1 hx.2]
    rfl
  | cons x y L sep s hsep hmem _ ih =>
    intro hL pre str fuel acc hstr hfuel
    have hx := hL x (List.mem_cons_self _ _)
    obtain ⟨hne, _, hstoi⟩ := decimal_spec x
    obtain ⟨d, sep1, hsep1⟩ := List.exists_cons_of_ne_nil hsep
    subst hsep1
    have hdd : d ∈ delimiter := hmem d (List.mem_cons_self _ _)
    have htl := List.length_pos.mpr hne
    have hstr1 : str = pre ++ (decimal x ++ (d :: (sep1 ++ s))) := by
      rw [hstr]
      simp
    have hfind : find_first_of str delimiter pre.length
        = some (pre.length + (decimal x).length) := by
      rw [find_first_of_at str pre _ delimiter hstr1, firstIn_token _ _ _ (htok x), firstIn,
        if_pos hdd]
      simp only [Option.map_some']
      congr 1
      omega
    have hslen : str.length
        = pre.length + (decimal x).length + 1 + sep1.length + s.length := by
      rw [hstr1]
      simp only [List.length_append, List.length_cons]
      omega
    obtain ⟨f, hf⟩ : ∃ f, fuel = f + 1 := ⟨fuel - 1, by omega⟩
    have hfuel2 : s.length + 1 ≤ f - sep1.length ∧ sep1.length ≤ f := by
      simp only [List.length_append, List.length_cons] at hfuel
      omega
    have hsub : substr str pre.length
        (some (pre.length + (decimal x).length - pre.length)) = decimal x := by
      unfold substr
      dsimp only
      rw [hstr1, List.drop_left, Nat.add_sub_cancel_left, List.take_left']
      rfl
    rw [hfind, hf, parseLoop_step _ _ _ _ _ _ (by omega), if_pos (by omega), hsub,
      hstoi hx.1 hx.2]
    simp only [Option.map_some']
    have hstr2 : str = (pre ++ decimal x ++ [d]) ++ (sep1 ++ s) := by
      rw [hstr1]
      simp
    have hl2 : (pre ++ decimal x ++ [d]).length = pre.length + (decimal x).length + 1 := by
      simp only [List.length_append, List.length_singleton]
    have hskip := parseLoop_skip delimiter sep1 (pre ++ decimal x ++ [d]) s str
      (f - sep1.length) (acc ++ [x]) (fun c hc => hmem c (List.mem_cons_of_mem _ hc)) hstr2
    rw [hl2, Nat.sub_add_cancel hfuel2.2] at hskip
    rw [hskip]
    have hstr3 : str = (pre ++ decimal x ++ [d] ++ sep1) ++ s := by
      rw [hstr2]
      simp
    have hl3 : (pre ++ decimal x ++ [d] ++ sep1).length
        = pre.length + (decimal x).length + 1 + sep1.length := by
      simp only [List.length_append, List.length_singleton]
    have := ih (fun z hz => hL z (List.mem_cons_of_mem _ hz))
      (pre ++ decimal x ++ [d] ++ sep1) str (f - sep1.length) (acc ++ [x]) hstr3 hfuel2.1
    rw [hl3] at this
    rw [this]
    simp

/-- C20. Parsing splits on delimiter characters and keeps order: for every
list `L` of integers that fit the 32-bit `int` and every string built by
writing the elements of `L` in decimal, separated by one or more characters
of the delimiter set (none of which is a digit or a sign), `parseInts`
returns with exactly the elements of `L` appended, in order, to `numList`,
whose earlier elements are unchanged; `"5,3,8,1,9,2,7"` with delimiter `","`
parses to `[5,3,8,1,9,2,7]`. -/
theorem parseInts_appends (delimiter : List Char) (L : List Int) (str : List Char)
    (numList : List Int)
    (hd : ∀ c ∈ delimiter, isdigit c = false ∧ c ≠ '-' ∧ c ≠ '+')
    (hL : ∀ x ∈ L, -2147483648 ≤ x ∧ x ≤ 2147483647)
    (hw : Written delimiter L str) :
    parseInts str delimiter numList = some (some (numList ++ L)) ∧
    (numList ++ L).take numList.length = numList ∧
    (numList ++ L).drop numList.length = L := by
  refine ⟨?_, List.take_left' rfl, List.drop_left' rfl⟩
  unfold parseInts
  exact parse_written delimiter hd L str hw hL [] str (str.length + 1) numList rfl
    (Nat.le_refl _)

theorem parseInts_appends_witness :
    (∀ c ∈ [','], isdigit c = false ∧ c ≠ '-' ∧ c ≠ '+') ∧
    (∀ x ∈ ([5, 3, 8, 1, 9, 2, 7] : List Int), -2147483648 ≤ x ∧ x ≤ 2147483647) ∧
    Written [','] [5, 3, 8, 1, 9, 2, 7]
      ['5', ',', '3', ',', '8', ',', '1', ',', '9', ',', '2', ',', '7'] ∧
    (parseInts ['5', ',', '3', ',', '8', ',', '1', ',', '9', ',', '2', ',', '7'] [','] [4]
        = some (some ([4] ++ [5, 3, 8, 1, 9, 2, 7])) ∧
      ([4] ++ [5, 3, 8, 1, 9, 2, 7] : List Int).take ([4] : List Int).length = [4] ∧
      ([4] ++ [5, 3, 8, 1, 9, 2, 7] : List Int).drop ([4] : List Int).length
        = [5, 3, 8, 1, 9, 2, 7]) ∧
    parseInts ['5', ',', '3', ',', '8', ',', '1', ',', '9', ',', '2', ',', '7'] [','] []
      = some (some [5, 3, 8, 1, 9, 2, 7]) ∧
    parseInts ['-', '1', '2', ';', ',', '3', ' ', '4', '0'] [',', ';', ' '] [9]
      = some (some [9, -12, 3, 40]) :=
  have hd : ∀ c ∈ [','], isdigit c = false ∧ c ≠ '-' ∧ c ≠ '+' := by decide
  have hL : ∀ x ∈ ([5, 3, 8, 1, 9, 2, 7] : List Int), -2147483648 ≤ x ∧ x ≤ 2147483647 := by
    decide
  have hw : Written [','] [5, 3, 8, 1, 9, 2, 7]
      ['5', ',', '3', ',', '8', ',', '1', ',', '9', ',', '2', ',', '7'] :=
    Written.cons 5 3 _ [','] _ (by decide) (by decide)
      (Written.cons 3 8 _ [','] _ (by decide) (by decide)
        (Written.cons 8 1 _ [','] _ (by decide) (by decide)
          (Written.cons 1 9 _ [','] _ (by decide) (by decide)
            (Written.cons 9 2 _ [','] _ (by decide) (by decide)
              (Written.cons 2 7 _ [','] _ (by decide) (by decide) (Written.one 7))))))
  ⟨hd, hL, hw, parseInts_appends [','] [5, 3, 8, 1, 9, 2, 7] _ [4] hd hL hw,
    by decide, by decide⟩

/-! ## Inputs that do not fit the pipe -/

/-- Whatever the operating system does, every vector handed to a worker
holds at least 3 elements: only vectors of more than 5 elements are split. -/
theorem sortInts_workers_nonempty (os : List Bool → Sched) (numList : List Int) :
    ∀ (fuel : Nat) (path : List Bool) (numberList : List Int),
      numberList.length ≤ numList.length → numberList.length ≤ fuel →
      ∀ run, sortInts os fuel path numList numberList = some run →
      ∀ w ∈ run.workers, 3 ≤ w.1.length := by
  have hleaf : ∀ (fuel : Nat) (path : List Bool) (numberList : List Int),
      numberList.length ≤ 5 →
      ∀ run, sortInts os fuel path numList numberList = some run →
      ∀ w ∈ run.workers, 3 ≤ w.1.length := by
    intro fuel path numberList h5 run hrun w hw
    obtain ⟨sorted, _, hs, _⟩ := sortInts_leaf os fuel path numList numberList h5
    rw [hs] at hrun
    rw [← Option.some.inj hrun] at hw
    cases hw
  intro fuel
  induction fuel with
  | zero =>
    intro path numberList _ hf
    exact hleaf 0 path numberList (by omega)
  | succ fuel ih =>
    intro path numberList hle hf
    by_cases h5 : numberList.length ≤ 5
    · exact hleaf (fuel + 1) path numberList h5
    · intro run hrun w hw
      have hllen : (leftChildnums numberList).length = numberList.length / 2 := by
        rw [leftChildnums_eq, List.length_take]
        omega
      have hrlen : (rightChildnums numberList).length
          = numberList.length - numberList.length / 2 := by
        rw [rightChildnums_eq, List.length_drop]
      obtain ⟨lrun, hl1, hl2⟩ := sortInts_total os numList fuel (false :: path)
        (leftChildnums numberList) (by omega) (by omega)
      obtain ⟨rrun, hr1, hr2⟩ := sortInts_total os numList fuel (true :: path)
        (rightChildnums numberList) (by omega) (by omega)
      obtain ⟨out, hout⟩ := sortInts_unfold os fuel path numList numberList (by omega)
        lrun rrun hl1 hr1 (hl2 (by omega)) (hr2 (by omega))
      rw [hout] at hrun
      rw [← Option.some.inj hrun] at hw
      dsimp only at hw
      rcases List.mem_append.mp hw with h | h
      · split at h
        · rcases List.mem_cons.mp h with h | h
          · rw [h]
            dsimp only
            omega
          · exact ih (false :: path) (leftChildnums numberList) (by omega) (by omega)
              lrun hl1 w h
        · cases h
      · split at h
        · rcases List.mem_cons.mp h with h | h
          · rw [h]
            dsimp only
            omega
          · exact ih (true :: path) (rightChildnums numberList) (by omega) (by omega)
              rrun hr1 w h
        · cases h

/-- A one-element vector cut at `mid = 0` would have an empty left part;
`sortInts` never splits such a vector. -/
theorem leftChildnums_singleton :
    leftChildnums [42] = [] ∧ rightChildnums [42] = [42] := by
  decide

/-- C14. No empty partition: every sequence that is split has two
non-empty partitions. Whatever the operating system does, every partition
handed to a worker in a run of the sort holds at least 3 elements; every
parent sequence that `sortInts` splits (more than 5 elements, line 140), and
indeed every one of at least two elements, is cut at `mid = length / 2` into
two non-empty partitions `sequence[0:mid]` and `sequence[mid:length]`, so on
these a partition is empty only when the parent is; an empty parent has two
empty partitions; and `main` answers a list of fewer than two elements
itself, so that no such list is ever split. -/
theorem split_nonempty (os : List Bool → Sched) (S : List Int) :
    (∃ run, sort os S = some run ∧ ∀ w ∈ run.workers, w.1 ≠ [] ∧ 3 ≤ w.1.length) ∧
    (∀ numberList : List Int, 5 < numberList.length →
      leftChildnums numberList ≠ [] ∧ rightChildnums numberList ≠ [] ∧
      leftChildnums numberList = numberList.take (numberList.length / 2) ∧
      rightChildnums numberList = numberList.drop (numberList.length / 2) ∧
      (leftChildnums numberList = [] ∨ rightChildnums numberList = [] →
        numberList = [])) ∧
    (∀ numberList : List Int, 2 ≤ numberList.length →
      leftChildnums numberList ≠ [] ∧ rightChildnums numberList ≠ []) ∧
    (∀ numberList : List Int, rightChildnums numberList = [] ↔ numberList = []) ∧
    (leftChildnums [] = [] ∧ rightChildnums [] = []) ∧
    (main os [] = some .nothingToSort ∧
      ∀ x : Int, main os [x] = some (.noSortingNeeded x)) := by
  have key : ∀ L : List Int, (leftChildnums L).length = L.length / 2 ∧
      (rightChildnums L).length = L.length - L.length / 2 := by
    intro L
    rw [leftChildnums_eq, rightChildnums_eq, List.length_take, List.length_drop]
    omega
  have hnil : ∀ l : List Int, l = [] ↔ l.length = 0 := fun l =>
    ⟨fun h => by rw [h]; rfl, List.eq_nil_of_length_eq_zero⟩
  have h2 : ∀ numberList : List Int, 2 ≤ numberList.length →
      leftChildnums numberList ≠ [] ∧ rightChildnums numberList ≠ [] := by
    intro L hL
    constructor
    · rw [Ne, hnil, (key L).1]
      omega
    · rw [Ne, hnil, (key L).2]
      omega
  refine ⟨?_, ?_, h2, ?_, ⟨by decide, by decide⟩, rfl, fun x => rfl⟩
  · obtain ⟨run, hrun, _⟩ :=
      sortInts_total os S S.length [] S (Nat.le_refl _) (Nat.le_refl _)
    refine ⟨run, hrun, ?_⟩
    intro w hw
    have h3 := sortInts_workers_nonempty os S S.length [] S (Nat.le_refl _) (Nat.le_refl _)
      run hrun w hw
    refine ⟨?_, h3⟩
    intro hw0
    rw [hw0] at h3
    simp at h3
  · intro L hL
    obtain ⟨ha, hb⟩ := h2 L (by omega)
    exact ⟨ha, hb, leftChildnums_eq L, rightChildnums_eq L,
      fun h => h.elim (fun h => absurd h ha) (fun h => absurd h hb)⟩
  · intro L
    rw [hnil, hnil L, (key L).2]
    omega

theorem split_nonempty_witness :
    leftChildnums [5, 3, 8, 1, 9, 2, 7] = [5, 3, 8] ∧
    rightChildnums [5, 3, 8, 1, 9, 2, 7] = [1, 9, 2, 7] ∧
    sort idealOs [5, 3, 8, 1, 9, 2, 7] = some ⟨.returned [1, 2, 3, 5, 7, 8, 9],
      [([5, 3, 8], .exited [3, 5, 8]), ([1, 9, 2, 7], .exited [1, 2, 7, 9])]⟩ ∧
    main idealOs [42] = some (.noSortingNeeded 42) ∧
    main idealOs [] = some .nothingToSort ∧
    (∃ run, sort idealOs [5, 3, 8, 1, 9, 2, 7] = some run ∧
      ∀ w ∈ run.workers, w.1 ≠ [] ∧ 3 ≤ w.1.length) :=
  ⟨by decide, by decide, by decide, by decide, by decide,
    (split_nonempty idealOs [5, 3, 8, 1, 9, 2, 7]).1⟩

end ForkedNumberSorting
